import Mathlib

/-!
Verification of the github-contribution-analyzer pipeline
(`src/models/Review.js`) against its natural-language specification.

The JavaScript source is shallowly embedded: pure computations become Lean
functions, the mutable report accumulator becomes explicit state passing over
association lists, remote fetches become function parameters supplying the
fetched data, and the retry/rate-limit `catch` handlers become explicit step
functions on the loop counters.  Machine arithmetic in the source is plain
JavaScript number arithmetic on non-negative integers, embedded as `Nat`
(no overflow is reachable at the magnitudes involved).
-/

set_option autoImplicit false

namespace GCA

universe u v

variable {α : Type u} {β : Type v}

/-! ### Generic helpers from the source -/

/-- Recursion core of `chunkArray`, structurally recursive on a fuel that is
always instantiated with the list length (one element is consumed per step,
so the fuel never runs out at the call sites). -/
def chunkArrayGo : Nat → List α → Nat → List (List α)
  | _, [], _ => []
  | 0, _ :: _, _ => []
  | fuel+1, x :: xs, k =>
    (x :: xs.take (k-1)) :: chunkArrayGo fuel (xs.drop (k-1)) k

/-- Embedding of `chunkArray(array, chunkSize)` (Review.js:1684): splits a
list into consecutive chunks of `chunkSize` elements.  The source loops
forever when `chunkSize == 0` and the array is non-empty; the embedding
returns `[]` there, and every call site passes a positive chunk size. -/
def chunkArray (l : List α) (k : Nat) : List (List α) :=
  if k = 0 then [] else chunkArrayGo l.length l k

theorem chunkArrayGo_fuel_irrel :
    ∀ (f1 : Nat) (l : List α) (f2 k : Nat), l.length ≤ f1 → l.length ≤ f2 →
      chunkArrayGo f1 l k = chunkArrayGo f2 l k := by
  intro f1
  induction f1 with
  | zero =>
    intro l f2 k h1 h2
    cases l with
    | nil => cases f2 <;> rfl
    | cons x xs => simp at h1
  | succ n ih =>
    intro l f2 k h1 h2
    cases l with
    | nil => cases f2 <;> rfl
    | cons x xs =>
      cases f2 with
      | zero => simp at h2
      | succ m =>
        simp only [chunkArrayGo]
        congr 1
        apply ih
        · have hd : (xs.drop (k-1)).length = xs.length - (k-1) :=
            List.length_drop _ _
          simp only [List.length_cons] at h1
          omega
        · have hd : (xs.drop (k-1)).length = xs.length - (k-1) :=
            List.length_drop _ _
          simp only [List.length_cons] at h2
          omega

theorem chunkArray_nil (k : Nat) : chunkArray ([] : List α) k = [] := by
  unfold chunkArray chunkArrayGo
  split <;> rfl

theorem chunkArray_cons (x : α) (xs : List α) (k : Nat) :
    chunkArray (x :: xs) (k+1)
      = (x :: xs.take k) :: chunkArray (xs.drop k) (k+1) := by
  unfold chunkArray
  rw [if_neg (Nat.succ_ne_zero k), if_neg (Nat.succ_ne_zero k)]
  show chunkArrayGo (xs.length + 1) (x :: xs) (k+1) = _
  simp only [chunkArrayGo, Nat.add_sub_cancel]
  congr 1
  exact chunkArrayGo_fuel_irrel xs.length (xs.drop k) (xs.drop k).length (k+1)
    (by simp [List.length_drop]) (Nat.le_refl _)

theorem chunkArray_join : ∀ (l : List α) (k : Nat), 0 < k →
    (chunkArray l k).flatten = l
  | [], k, _ => by simp [chunkArray_nil]
  | x :: xs, k+1, _ => by
    rw [chunkArray_cons, List.flatten_cons,
      chunkArray_join (xs.drop k) (k+1) (Nat.succ_pos k)]
    simp [List.take_append_drop]
termination_by l _ _ => l.length
decreasing_by
  simp only [List.length_drop, List.length_cons]
  omega

/-- Folding a step over consecutive chunks is folding it over the whole list. -/
theorem foldl_chunks (step : β → α → β) (chunks : List (List α)) (init : β) :
    chunks.foldl (fun acc chunk => chunk.foldl step acc) init
      = chunks.flatten.foldl step init := by
  induction chunks generalizing init with
  | nil => rfl
  | cons c cs ih => simp [List.flatten_cons, List.foldl_append, ih]

/-! ### Branch-aware commit collector (`fetchCommitsForRepo`, Review.js:2617-2645) -/

/-- A raw commit as consumed by the collector: identified by `sha`, carrying
the two author fields the aggregator reads (`commit.author?.login` and
`commit.commit?.author?.name`). -/
structure Commit where
  sha : String
  authorLogin : Option String := none
  commitAuthorName : Option String := none
deriving Repr, DecidableEq

/-- Number of commits in `l` carrying sha `s`. -/
def shaCount (l : List Commit) (s : String) : Nat :=
  l.countP (fun c => c.sha == s)

/-- Embedding of `new Set(allCommits.map(commit => commit.sha))` membership. -/
def hasSha (l : List Commit) (s : String) : Bool :=
  (l.map Commit.sha).contains s

/-- One iteration of the merge loop in `fetchCommitsForRepo` (Review.js:2629-2637):
append the commits of one branch that are not already present by sha. -/
def mergeStep (acc branchCommits : List Commit) : List Commit :=
  acc ++ branchCommits.filter (fun c => !(hasSha acc c.sha))

/-- The merge phase of `fetchCommitsForRepo` over the flat sequence of
per-branch results. -/
def mergeBranchResults (results : List (List Commit)) : List Commit :=
  results.foldl mergeStep []

/-- Embedding of the branch-processing loop of `fetchCommitsForRepo`
(Review.js:2617-2645): the branch list is chunked into batches of `limit`
(`concurrencyLimit = 5` in the source), each batch is fetched
(`fetchCommitsForBranch`, supplied here as the function `fetch`), and the
per-branch results are merged in order with sha-deduplication. -/
def fetchCommitsForRepo (branches : List String) (fetch : String → List Commit)
    (limit : Nat) : List Commit :=
  (chunkArray branches limit).foldl
    (fun acc chunk => (chunk.map fetch).foldl mergeStep acc) []

theorem hasSha_iff_pos (l : List Commit) (s : String) :
    hasSha l s = true ↔ 0 < shaCount l s := by
  simp only [hasSha, shaCount, List.contains_eq_any_beq, List.any_eq_true,
    List.countP_pos_iff, List.mem_map]
  constructor
  · rintro ⟨x, ⟨c, hc, rfl⟩, hx⟩
    have hs : s = c.sha := by simpa using hx
    exact ⟨c, hc, by simp [hs]⟩
  · rintro ⟨c, hc, hx⟩
    have hs : c.sha = s := by simpa using hx
    exact ⟨c.sha, ⟨c, hc, rfl⟩, by simp [hs]⟩

theorem shaCount_mergeStep (acc bc : List Commit) (s : String) :
    shaCount (mergeStep acc bc) s
      = shaCount acc s + (if hasSha acc s then 0 else shaCount bc s) := by
  unfold mergeStep shaCount
  rw [List.countP_append]
  congr 1
  by_cases h : hasSha acc s
  · simp only [h, if_true]
    rw [List.countP_eq_zero]
    intro c hc
    rcases List.mem_filter.mp hc with ⟨_, hkeep⟩
    intro hsha
    have : c.sha = s := by simpa using hsha
    rw [this] at hkeep
    simp [h] at hkeep
  · simp only [h, if_false]
    rw [List.countP_filter]
    apply List.countP_congr
    intro c _
    by_cases hcs : c.sha = s
    · subst hcs
      simp [h]
    · simp [hcs]

theorem foldl_mergeStep_count (results : List (List Commit)) (acc : List Commit)
    (s : String) (hacc : shaCount acc s ≤ 1)
    (hres : ∀ l ∈ results, shaCount l s ≤ 1) :
    shaCount (results.foldl mergeStep acc) s ≤ 1
      ∧ ((shaCount acc s = 1 ∨ ∃ l ∈ results, hasSha l s = true) →
          shaCount (results.foldl mergeStep acc) s = 1) := by
  induction results generalizing acc with
  | nil =>
    refine ⟨hacc, ?_⟩
    rintro (h1 | ⟨l, hl, _⟩)
    · exact h1
    · cases hl
  | cons bc rest ih =>
    simp only [List.foldl_cons]
    have hbc : shaCount bc s ≤ 1 := hres bc (by simp)
    have hrest : ∀ l ∈ rest, shaCount l s ≤ 1 := fun l hl => hres l (by simp [hl])
    have hstep : shaCount (mergeStep acc bc) s ≤ 1 := by
      rw [shaCount_mergeStep]
      by_cases h : hasSha acc s
      · simpa [h] using hacc
      · have : shaCount acc s = 0 := by
          by_contra hne
          exact h ((hasSha_iff_pos acc s).mpr (Nat.pos_of_ne_zero hne))
        simpa [h, this] using hbc
    obtain ⟨hle, heq⟩ := ih (mergeStep acc bc) hstep hrest
    refine ⟨hle, ?_⟩
    rintro (h1 | ⟨l, hl, hls⟩)
    · apply heq
      left
      rw [shaCount_mergeStep]
      have h : hasSha acc s = true := (hasSha_iff_pos acc s).mpr (by omega)
      simpa [h] using h1
    · rcases List.mem_cons.mp hl with rfl | hlr
      · apply heq
        left
        rw [shaCount_mergeStep]
        by_cases h : hasSha acc s
        · have : shaCount acc s = 1 :=
            Nat.le_antisymm hacc ((hasSha_iff_pos acc s).mp h)
          simpa [h] using this
        · have h0 : shaCount acc s = 0 := by
            by_contra hne
            exact h ((hasSha_iff_pos acc s).mpr (Nat.pos_of_ne_zero hne))
          have hpos : 0 < shaCount l s := (hasSha_iff_pos l s).mp hls
          have : shaCount l s = 1 := Nat.le_antisymm hbc hpos
          simp [h, h0, this]
      · exact heq (Or.inr ⟨l, hlr, hls⟩)

/-- C1 — For every repository and time window, the commit collector
(`fetchCommitsForRepo`) returns each commit sha at most once: for any commit
sha appearing in the commit lists of two or more branches of the same
repository (each branch listing it once), the merged result contains exactly
one commit with that sha, regardless of how branches are chunked into
concurrent batches (the theorem holds for every positive batch size `limit`). -/
theorem fetchCommitsForRepo_dedup (branches : List String)
    (fetch : String → List Commit) (limit : Nat) (s : String)
    (hlimit : 0 < limit)
    (honce : ∀ b ∈ branches, shaCount (fetch b) s ≤ 1)
    (htwo : 2 ≤ branches.countP (fun b => hasSha (fetch b) s)) :
    shaCount (fetchCommitsForRepo branches fetch limit) s = 1 := by
  have hflat : fetchCommitsForRepo branches fetch limit
      = mergeBranchResults (branches.map fetch) := by
    unfold fetchCommitsForRepo mergeBranchResults
    have h1 : ∀ (acc : List Commit) (chunk : List String),
        (chunk.map fetch).foldl mergeStep acc
          = chunk.foldl (fun a b => mergeStep a (fetch b)) acc := by
      intro acc chunk
      rw [List.foldl_map]
    simp only [h1]
    rw [foldl_chunks, chunkArray_join branches limit hlimit, ← List.foldl_map]
  rw [hflat]
  have hexists : ∃ b ∈ branches, hasSha (fetch b) s = true := by
    have hpos : 0 < branches.countP (fun b => hasSha (fetch b) s) := by omega
    exact List.countP_pos_iff.mp hpos
  obtain ⟨b, hb, hbs⟩ := hexists
  have := foldl_mergeStep_count (branches.map fetch) [] s (by simp [shaCount])
    (by
      intro l hl
      rcases List.mem_map.mp hl with ⟨b', hb', rfl⟩
      exact honce b' hb')
  exact this.2 (Or.inr ⟨fetch b, List.mem_map_of_mem fetch hb, hbs⟩)

/-- Concrete witness for C1: the sha `"abc"` is listed once on each of the two
branches, and the collector returns it exactly once. -/
theorem fetchCommitsForRepo_dedup_witness :
    (0 < 5
      ∧ (∀ b ∈ ["main", "dev"],
          shaCount ((fun (_ : String) => [Commit.mk "abc" none none]) b) "abc" ≤ 1)
      ∧ 2 ≤ (["main", "dev"].countP
          (fun b => hasSha ((fun (_ : String) => [Commit.mk "abc" none none]) b) "abc")))
    ∧ shaCount
        (fetchCommitsForRepo ["main", "dev"]
          (fun (_ : String) => [Commit.mk "abc" none none]) 5) "abc" = 1 :=
  ⟨⟨by decide, by decide, by decide⟩,
    fetchCommitsForRepo_dedup ["main", "dev"]
      (fun (_ : String) => [Commit.mk "abc" none none]) 5 "abc"
      (by decide) (by decide) (by decide)⟩

/-! ### Error handling of the fetch loops
(`fetchCommitsForBranch` Review.js:2707-2762, `getIssues` Review.js:3851-3933,
`getPullRequests` Review.js:3788-3831)

Each pagination loop wraps its HTTP call in a `catch` handler that decides,
from the error and the current attempt counter, whether to sleep and retry or
to give up on the page.  The handlers are pure decisions and are embedded as
step functions; the loop counters are threaded explicitly. -/

/-- The fields of a provider error that the three catch handlers inspect:
`status`, the `x-ratelimit-remaining` and `x-ratelimit-reset` response headers,
and whether the message contains the substrings tested by
`message.includes(...)` in the source. -/
structure ApiError where
  status : Nat
  ratelimitRemaining : Option String := none
  ratelimitReset : Option Nat := none
  msgHasRateLimit : Bool := false
  msgHasSocketHang : Bool := false
deriving Repr, DecidableEq

/-- Outcome of one catch handler: the attempt counter after the handler, the
backoff sleep it issues (milliseconds), and whether it marked the page loop as
finished (`hasMoreCommits = false` / `hasMorePages = false`). -/
structure RetryOutcome where
  attempts : Nat
  waitMs : Option Nat
  gaveUp : Bool
deriving Repr, DecidableEq

/-- The rate-limit test of `fetchCommitsForBranch` (Review.js:2745):
`error.status === 403 && error.response?.headers?.['x-ratelimit-remaining'] === '0'`. -/
def isRateLimitSignal (e : ApiError) : Bool :=
  e.status == 403 && e.ratelimitRemaining == some "0"

/-- The rate-limit wait of the source (Review.js:2748, 3912):
`Math.max(resetTime * 1000 - Date.now(), 0) + 1000` — reset time in epoch
seconds, clock in epoch milliseconds, one-second buffer.  `Nat` subtraction is
truncated at zero, which is exactly the `Math.max(_, 0)`. -/
def rateLimitWaitMs (now resetSec : Nat) : Nat :=
  max (resetSec * 1000 - now) 0 + 1000

/-- Embedding of the catch handler of the pagination loop of
`fetchCommitsForBranch` (Review.js:2741-2761).  `retries` is the counter value
before the failing attempt; the handler increments it first (`retries++`),
then branches: a rate-limit signal sleeps until the reset time (an absent
reset header makes the JavaScript wait `NaN`, i.e. an immediate timer);
otherwise, a remaining budget sleeps `2^retries` seconds; otherwise the page
loop gives up (`hasMoreCommits = false`). -/
def fetchCommitsForBranchOnError (maxRetries retries now : Nat) (e : ApiError) :
    RetryOutcome :=
  let retries1 := retries + 1
  if isRateLimitSignal e then
    { attempts := retries1,
      waitMs := some (match e.ratelimitReset with
        | some r => rateLimitWaitMs now r
        | none => 0),
      gaveUp := false }
  else if retries1 < maxRetries then
    { attempts := retries1, waitMs := some (2 ^ retries1 * 1000), gaveUp := false }
  else
    { attempts := retries1, waitMs := none, gaveUp := true }

/-- Embedding of one failing iteration of the retry loop of `getIssues`
(Review.js:3855-3931).  The loop increments `attempts` at the top of the
iteration (`attempts++`, Review.js:3857) before the call; the catch handler
then branches: socket errors sleep `2^attempts` seconds; a 403 whose message
contains `rate limit` and whose reset header is present sleeps until the
reset time and decrements `attempts` back (`attempts--`, Review.js:3916);
other errors sleep `2^attempts` seconds while `attempts < maxAttempts` and
otherwise give the page up (`hasMorePages = false`). -/
def getIssuesOnError (maxAttempts attemptsBefore now : Nat) (e : ApiError) :
    RetryOutcome :=
  let attempts := attemptsBefore + 1
  if e.msgHasSocketHang then
    { attempts := attempts, waitMs := some (2 ^ attempts * 1000), gaveUp := false }
  else if e.status == 403 && e.msgHasRateLimit && e.ratelimitReset.isSome then
    { attempts := attempts - 1,
      waitMs := some (rateLimitWaitMs now (e.ratelimitReset.getD 0)),
      gaveUp := false }
  else if attempts < maxAttempts then
    { attempts := attempts, waitMs := some (2 ^ attempts * 1000), gaveUp := false }
  else
    { attempts := attempts, waitMs := none, gaveUp := true }

/-- Embedding of the catch handler of `getPullRequests` (Review.js:3815-3830):
every branch — rate limit, 404, 401, and the generic case — only logs and sets
`hasMorePages = false`; the accumulated `allPRs` is then returned.  The
returned boolean is `hasMorePages` after the handler. -/
def getPullRequestsOnError (_e : ApiError) : Bool :=
  false

/-- C3 (amended) — On a rate-limit signal with reset timestamp `T` (seconds),
both `fetchCommitsForBranch` and `getIssues` sleep until at least `T` plus a
one-second buffer before the next attempt.  The wait does not count toward the
retry-attempt limit in `getIssues` (the attempt counter is decremented back,
leaving the full budget), but in `fetchCommitsForBranch` the handler
increments the bounded retry counter on a rate-limit error just as on a
transient error, so there the wait does consume retry budget; and
`getPullRequests` performs no wait at all on a rate-limit signal — it aborts
its pagination. -/
theorem rateLimit_wait_and_budget (maxRetries retries now resetSec : Nat)
    (e : ApiError)
    (hrl : isRateLimitSignal e = true) (hreset : e.ratelimitReset = some resetSec)
    (maxAttempts attemptsBefore : Nat) (e2 : ApiError)
    (h403 : e2.status = 403) (hmsg : e2.msgHasRateLimit = true)
    (hsock : e2.msgHasSocketHang = false)
    (hreset2 : e2.ratelimitReset = some resetSec) :
    ((fetchCommitsForBranchOnError maxRetries retries now e).waitMs
        = some (rateLimitWaitMs now resetSec)
      ∧ now + rateLimitWaitMs now resetSec ≥ resetSec * 1000 + 1000
      ∧ (fetchCommitsForBranchOnError maxRetries retries now e).attempts
          = retries + 1)
    ∧ ((getIssuesOnError maxAttempts attemptsBefore now e2).waitMs
        = some (rateLimitWaitMs now resetSec)
      ∧ (getIssuesOnError maxAttempts attemptsBefore now e2).attempts
          = attemptsBefore
      ∧ (getIssuesOnError maxAttempts attemptsBefore now e2).gaveUp = false)
    ∧ getPullRequestsOnError e = false := by
  refine ⟨⟨?_, ?_, ?_⟩, ⟨?_, ?_, ?_⟩, rfl⟩
  · simp [fetchCommitsForBranchOnError, hrl, hreset]
  · unfold rateLimitWaitMs
    omega
  · simp [fetchCommitsForBranchOnError, hrl]
  · simp [getIssuesOnError, hsock, h403, hmsg, hreset2]
  · simp [getIssuesOnError, hsock, h403, hmsg, hreset2]
  · simp [getIssuesOnError, hsock, h403, hmsg, hreset2]

/-- Witness for C3 (amended) at concrete values: a 403 with zero remaining
quota and reset at epoch second 100, seen at epoch millisecond 40000. -/
theorem rateLimit_wait_and_budget_witness :
    ((fetchCommitsForBranchOnError 3 1 40000
        (ApiError.mk 403 (some "0") (some 100) true false)).waitMs
      = some (rateLimitWaitMs 40000 100)
    ∧ 40000 + rateLimitWaitMs 40000 100 ≥ 100 * 1000 + 1000
    ∧ (fetchCommitsForBranchOnError 3 1 40000
        (ApiError.mk 403 (some "0") (some 100) true false)).attempts = 1 + 1)
    ∧ ((getIssuesOnError 3 1 40000
        (ApiError.mk 403 (some "0") (some 100) true false)).waitMs
      = some (rateLimitWaitMs 40000 100)
    ∧ (getIssuesOnError 3 1 40000
        (ApiError.mk 403 (some "0") (some 100) true false)).attempts = 1
    ∧ (getIssuesOnError 3 1 40000
        (ApiError.mk 403 (some "0") (some 100) true false)).gaveUp = false)
    ∧ getPullRequestsOnError (ApiError.mk 403 (some "0") (some 100) true false)
      = false :=
  rateLimit_wait_and_budget 3 1 40000 100
    (ApiError.mk 403 (some "0") (some 100) true false) (by decide) (by decide)
    3 1 (ApiError.mk 403 (some "0") (some 100) true false)
    (by decide) (by decide) (by decide) (by decide)

/-- Counterexample to C3 as stated: in `fetchCommitsForBranch` the rate-limit
wait does count toward the bounded retry-attempt limit.  With `maxRetries = 3`,
after two rate-limit waits the counter stands at 2, and a single transient
error then exhausts the budget (`gaveUp = true`) — whereas with the full
budget available the same transient error is retried (`gaveUp = false`). -/
theorem fetchCommitsForBranch_rateLimit_consumes_budget :
    (fetchCommitsForBranchOnError 3 0 0
        (ApiError.mk 403 (some "0") (some 100) true false)).attempts = 1
    ∧ (fetchCommitsForBranchOnError 3 2 0 (ApiError.mk 500 none none false false)).gaveUp
        = true
    ∧ (fetchCommitsForBranchOnError 3 0 0 (ApiError.mk 500 none none false false)).gaveUp
        = false := by
  decide

/-- C5 (amended) — In `getPullRequests` any API error, in particular a 404 or
a 401, only stops the pagination loop: the fetch returns the accumulated
result and no retry attempt is made.  In `getIssues` and in the pagination
loop of `fetchCommitsForBranch`, however, a 404 or 401 is handled like a
transient error: while the attempt counter is below the bound the page is
retried after an exponential backoff, and only at the bound does the loop give
up and return the partially accumulated result; the error is never
propagated. -/
theorem notFound_auth_abort (e : ApiError)
    (hstatus : e.status = 404 ∨ e.status = 401)
    (hsock : e.msgHasSocketHang = false)
    (maxAttempts attemptsBefore now : Nat) :
    getPullRequestsOnError e = false
    ∧ (attemptsBefore + 1 < maxAttempts →
        (getIssuesOnError maxAttempts attemptsBefore now e).gaveUp = false
        ∧ (getIssuesOnError maxAttempts attemptsBefore now e).waitMs
            = some (2 ^ (attemptsBefore + 1) * 1000))
    ∧ (maxAttempts ≤ attemptsBefore + 1 →
        (getIssuesOnError maxAttempts attemptsBefore now e).gaveUp = true)
    ∧ (attemptsBefore + 1 < maxAttempts →
        (fetchCommitsForBranchOnError maxAttempts attemptsBefore now e).gaveUp
          = false
        ∧ (fetchCommitsForBranchOnError maxAttempts attemptsBefore now e).waitMs
            = some (2 ^ (attemptsBefore + 1) * 1000))
    ∧ (maxAttempts ≤ attemptsBefore + 1 →
        (fetchCommitsForBranchOnError maxAttempts attemptsBefore now e).gaveUp
          = true) := by
  have h403 : (e.status == 403) = false := by
    rcases hstatus with h | h <;> simp [h]
  have hrl : isRateLimitSignal e = false := by
    simp [isRateLimitSignal, h403]
  refine ⟨rfl, ?_, ?_, ?_, ?_⟩
  · intro hlt
    constructor <;> simp [getIssuesOnError, hsock, h403, hlt]
  · intro hge
    have : ¬ (attemptsBefore + 1 < maxAttempts) := by omega
    simp [getIssuesOnError, hsock, h403, this]
  · intro hlt
    constructor <;> simp [fetchCommitsForBranchOnError, hrl, hlt]
  · intro hge
    have : ¬ (attemptsBefore + 1 < maxAttempts) := by omega
    simp [fetchCommitsForBranchOnError, hrl, this]

/-- Witness for C5 (amended) at a concrete 404 on the first attempt with the
default bound of 3 attempts. -/
theorem notFound_auth_abort_witness :
    getPullRequestsOnError (ApiError.mk 404 none none false false) = false
    ∧ (0 + 1 < 3 →
        (getIssuesOnError 3 0 0 (ApiError.mk 404 none none false false)).gaveUp = false
        ∧ (getIssuesOnError 3 0 0 (ApiError.mk 404 none none false false)).waitMs
            = some (2 ^ (0 + 1) * 1000))
    ∧ (3 ≤ 0 + 1 →
        (getIssuesOnError 3 0 0 (ApiError.mk 404 none none false false)).gaveUp = true)
    ∧ (0 + 1 < 3 →
        (fetchCommitsForBranchOnError 3 0 0
          (ApiError.mk 404 none none false false)).gaveUp = false
        ∧ (fetchCommitsForBranchOnError 3 0 0
            (ApiError.mk 404 none none false false)).waitMs
          = some (2 ^ (0 + 1) * 1000))
    ∧ (3 ≤ 0 + 1 →
        (fetchCommitsForBranchOnError 3 0 0
          (ApiError.mk 404 none none false false)).gaveUp = true) :=
  notFound_auth_abort (ApiError.mk 404 none none false false)
    (Or.inl rfl) rfl 3 0 0

/-- Counterexample to C5 as stated: `getIssues` does retry after a 404.  On
the first failing attempt (counter 1 of 3) with a plain 404 error, the catch
handler schedules a 2-second backoff and leaves the loop running instead of
aborting the fetch. -/
theorem getIssues_retries_after_404 :
    (getIssuesOnError 3 0 0 (ApiError.mk 404 none none false false)).gaveUp = false
    ∧ (getIssuesOnError 3 0 0 (ApiError.mk 404 none none false false)).waitMs
        = some 2000 := by
  decide

/-! ### Scoring engine (`calculateEffortGrade` Review.js:4036-4048,
`convertScoreToGrade` Review.js:4055-4068) -/

/-- Embedding of `calculateEffortGrade(linesModified, activityScore)`
(Review.js:4036-4048): a cascade of threshold tests, highest band first, where
each band is entered when either the lines-modified or the activity-score
threshold is exceeded. -/
def calculateEffortGrade (linesModified activityScore : Nat) : String :=
  if linesModified > 1000 ∨ activityScore > 50 then "A+"
  else if linesModified > 750 ∨ activityScore > 40 then "A"
  else if linesModified > 500 ∨ activityScore > 30 then "A-"
  else if linesModified > 300 ∨ activityScore > 20 then "B+"
  else if linesModified > 200 ∨ activityScore > 15 then "B"
  else if linesModified > 100 ∨ activityScore > 10 then "B-"
  else if linesModified > 50 ∨ activityScore > 5 then "C+"
  else if linesModified > 25 ∨ activityScore > 3 then "C"
  else if linesModified > 10 ∨ activityScore > 1 then "C-"
  else "D"

/-- Embedding of `convertScoreToGrade(score)` (Review.js:4055-4068) on the
rationals (JavaScript numbers at half-point granularity). -/
def convertScoreToGrade (score : ℚ) : String :=
  if score ≥ 9.5 then "A+"
  else if score ≥ 9.0 then "A"
  else if score ≥ 8.5 then "A-"
  else if score ≥ 8.0 then "B+"
  else if score ≥ 7.5 then "B"
  else if score ≥ 7.0 then "B-"
  else if score ≥ 6.5 then "C+"
  else if score ≥ 6.0 then "C"
  else if score ≥ 5.5 then "C-"
  else if score ≥ 5.0 then "D+"
  else if score ≥ 4.0 then "D"
  else "F"

/-- The boundary table of `calculateEffortGrade`, highest band first: lines
threshold, activity threshold, grade. -/
def effortBands : List (Nat × Nat × String) :=
  [(1000, 50, "A+"), (750, 40, "A"), (500, 30, "A-"), (300, 20, "B+"),
   (200, 15, "B"), (100, 10, "B-"), (50, 5, "C+"), (25, 3, "C"), (10, 1, "C-")]

/-- First-match evaluation of a band table, defaulting to `"D"`: a band is
entered when either of its two thresholds is exceeded. -/
def firstMatchGrade : List (Nat × Nat × String) → Nat → Nat → String
  | [], _, _ => "D"
  | (lt, st, g) :: rest, l, a =>
    if l > lt ∨ a > st then g else firstMatchGrade rest l a

/-- The ten grades `calculateEffortGrade` can return, best first. -/
def effortGrades : List String :=
  ["A+", "A", "A-", "B+", "B", "B-", "C+", "C", "C-", "D"]

/-- Position of a grade in the effort scale, `"D"` lowest. -/
def effortGradeRank (g : String) : Nat :=
  if g = "A+" then 9
  else if g = "A" then 8
  else if g = "A-" then 7
  else if g = "B+" then 6
  else if g = "B" then 5
  else if g = "B-" then 4
  else if g = "C+" then 3
  else if g = "C" then 2
  else if g = "C-" then 1
  else 0

/-- First-match rank of a threshold table: the band at position `i` from the
bottom (counting the default band as 0) that the pair enters. -/
def rankAux : List (Nat × Nat) → Nat → Nat → Nat
  | [], _, _ => 0
  | (lt, st) :: rest, l, a =>
    if l > lt ∨ a > st then rest.length + 1 else rankAux rest l a

theorem rankAux_le_length (bs : List (Nat × Nat)) (l a : Nat) :
    rankAux bs l a ≤ bs.length := by
  induction bs with
  | nil => simp [rankAux]
  | cons b rest ih =>
    obtain ⟨lt, st⟩ := b
    simp only [rankAux, List.length_cons]
    split_ifs
    · omega
    · omega

theorem rankAux_mono (bs : List (Nat × Nat)) (l a l2 a2 : Nat)
    (hl : l ≤ l2) (ha : a ≤ a2) :
    rankAux bs l a ≤ rankAux bs l2 a2 := by
  induction bs with
  | nil => simp [rankAux]
  | cons b rest ih =>
    obtain ⟨lt, st⟩ := b
    simp only [rankAux]
    split_ifs with h1 h2
    · exact Nat.le_refl _
    · exact absurd (by omega : l2 > lt ∨ a2 > st) h2
    · calc rankAux rest l a ≤ rest.length := rankAux_le_length rest l a
        _ ≤ rest.length + 1 := Nat.le_succ _
    · exact ih

/-- The numeric thresholds of `effortBands`. -/
def effortThresholds : List (Nat × Nat) :=
  effortBands.map (fun b => (b.1, b.2.1))

theorem rankAux_closed (l a : Nat) :
    rankAux effortThresholds l a
      = (if l > 1000 ∨ a > 50 then 9
        else if l > 750 ∨ a > 40 then 8
        else if l > 500 ∨ a > 30 then 7
        else if l > 300 ∨ a > 20 then 6
        else if l > 200 ∨ a > 15 then 5
        else if l > 100 ∨ a > 10 then 4
        else if l > 50 ∨ a > 5 then 3
        else if l > 25 ∨ a > 3 then 2
        else if l > 10 ∨ a > 1 then 1
        else 0) := by
  norm_num [rankAux, effortThresholds, effortBands]

theorem effortGradeRank_calculate (l a : Nat) :
    effortGradeRank (calculateEffortGrade l a) = rankAux effortThresholds l a := by
  rw [rankAux_closed]
  unfold calculateEffortGrade
  split_ifs <;> decide

/-- C6 (amended) — `calculateEffortGrade` is a pure, monotonic step function
from `(linesModified, activityScore)` onto exactly ten letter grades from A+
down to D (there is no D+ band, so the scale has 10 grades, not 11).  Each
band is entered when either the lines-modified threshold or the
activity-score threshold is exceeded (the more generous of the two), bands
are checked highest-first and the first match wins — the function coincides
with first-match evaluation of the boundary table `effortBands`; in
particular `calculateEffortGrade 1001 0 = "A+"` and
`calculateEffortGrade 0 0 = "D"`. -/
theorem calculateEffortGrade_spec (l a l2 a2 : Nat) (hl : l ≤ l2) (ha : a ≤ a2) :
    calculateEffortGrade l a = firstMatchGrade effortBands l a
    ∧ effortGradeRank (calculateEffortGrade l a)
        ≤ effortGradeRank (calculateEffortGrade l2 a2)
    ∧ calculateEffortGrade l a ∈ effortGrades
    ∧ (∀ g ∈ effortGrades, ∃ lw : Nat, calculateEffortGrade lw 0 = g)
    ∧ effortGrades.length = 10
    ∧ calculateEffortGrade 1001 0 = "A+"
    ∧ calculateEffortGrade 0 0 = "D" := by
  refine ⟨?_, ?_, ?_, ?_, rfl, rfl, rfl⟩
  · simp only [calculateEffortGrade, firstMatchGrade, effortBands]
  · rw [effortGradeRank_calculate, effortGradeRank_calculate]
    exact rankAux_mono effortThresholds l a l2 a2 hl ha
  · unfold calculateEffortGrade
    split_ifs <;> decide
  · intro g hg
    unfold effortGrades at hg
    simp only [List.mem_cons, List.not_mem_nil, or_false] at hg
    rcases hg with rfl | rfl | rfl | rfl | rfl | rfl | rfl | rfl | rfl | rfl
    · exact ⟨1001, rfl⟩
    · exact ⟨751, rfl⟩
    · exact ⟨501, rfl⟩
    · exact ⟨301, rfl⟩
    · exact ⟨201, rfl⟩
    · exact ⟨101, rfl⟩
    · exact ⟨51, rfl⟩
    · exact ⟨26, rfl⟩
    · exact ⟨11, rfl⟩
    · exact ⟨0, rfl⟩

/-- Witness for C6 (amended) at the concrete pair (0,0) ≤ (1001,0). -/
theorem calculateEffortGrade_spec_witness :
    calculateEffortGrade 0 0 = firstMatchGrade effortBands 0 0
    ∧ effortGradeRank (calculateEffortGrade 0 0)
        ≤ effortGradeRank (calculateEffortGrade 1001 0)
    ∧ calculateEffortGrade 0 0 ∈ effortGrades
    ∧ (∀ g ∈ effortGrades, ∃ lw : Nat, calculateEffortGrade lw 0 = g)
    ∧ effortGrades.length = 10
    ∧ calculateEffortGrade 1001 0 = "A+"
    ∧ calculateEffortGrade 0 0 = "D" :=
  calculateEffortGrade_spec 0 0 1001 0 (by omega) (by omega)

/-- Counterexample to C6 as stated: the claim asserts a range of exactly 11
letter grades, but every output of `calculateEffortGrade` lies in the
10-element list `effortGrades`, which has no `"D+"` (the grade an 11-step
scale from A+ down to D would contain); so the function maps onto 10 grades,
not 11. -/
theorem calculateEffortGrade_not_eleven_grades :
    (∀ l a : Nat, calculateEffortGrade l a ∈ effortGrades)
    ∧ effortGrades.length = 10
    ∧ effortGrades.Nodup
    ∧ "D+" ∉ effortGrades := by
  refine ⟨?_, rfl, by decide, by decide⟩
  intro l a
  unfold calculateEffortGrade
  split_ifs <;> decide

/-! ### The aggregation pipeline (`generateContributionReport`, Review.js:3091-3488)

The report accumulator (`contributions`) is a JavaScript object mutated in
place; it is embedded as an explicit state value.  JavaScript objects used as
maps become association lists: assignment keeps the position of an existing
key and appends a new key at the end, which `alSet` mirrors.  The concurrent
repository chunks and per-repository event processors mutate disjoint
statistic fields, so their event-loop interleavings all produce the same
final state; the embedding runs them in program order. -/

/-- A configured repository reference (`{owner, repo}`). -/
structure RepoRef where
  owner : String
  repo : String
deriving Repr, DecidableEq

/-- The map key used throughout: `` `${owner}/${repo}` ``. -/
def repoKey (r : RepoRef) : String := r.owner ++ "/" ++ r.repo

/-- A pull request as consumed by the aggregator (`pr.user.login`,
`pr.merged_at`). -/
structure PullRequest where
  number : Nat
  userLogin : String
  mergedAt : Option String := none
deriving Repr, DecidableEq

/-- An issue as consumed by the aggregator (`issue.user.login`, `issue.state`,
and the truthiness of `issue.pull_request`). -/
structure Issue where
  number : Nat
  userLogin : String
  state : String := "open"
  isPullRequest : Bool := false
deriving Repr, DecidableEq

/-- JavaScript `x || y` on an optional string: an absent or empty string falls
through to the fallback. -/
def orElseTruthy (x : Option String) (y : String) : String :=
  match x with
  | some s => if s = "" then y else s
  | none => y

/-- Author resolution of the commit processor (Review.js:3218):
`commit.author?.login || commit.commit?.author?.name || 'Unknown'`. -/
def commitAuthor (c : Commit) : String :=
  orElseTruthy c.authorLogin (orElseTruthy c.commitAuthorName "Unknown")

/-- Per-user per-repository statistics (Review.js:1716-1723). -/
structure UserRepoStats where
  commits : Nat := 0
  pullRequests : Nat := 0
  issues : Nat := 0
  linesAdded : Nat := 0
  linesDeleted : Nat := 0
  linesModified : Nat := 0
deriving Repr, DecidableEq

/-- Per-user statistics (Review.js:1698-1709). -/
structure UserStats where
  totalCommits : Nat := 0
  totalPRs : Nat := 0
  totalIssues : Nat := 0
  linesAdded : Nat := 0
  linesDeleted : Nat := 0
  linesModified : Nat := 0
  activityScore : Nat := 0
  codeQualityGrade : String := "N/A"
  effortGrade : String := "N/A"
  repositories : List (String × UserRepoStats) := []
deriving Repr, DecidableEq

/-- Per-repository statistics (Review.js:3179-3189). -/
structure RepoStats where
  commits : Nat := 0
  pullRequests : Nat := 0
  issues : Nat := 0
  prsMerged : Nat := 0
  issuesClosed : Nat := 0
  linesAdded : Nat := 0
  linesDeleted : Nat := 0
  linesModified : Nat := 0
  contributors : List String := []
deriving Repr, DecidableEq

/-- The report summary (Review.js:3121-3135); the period is carried as the two
ISO date strings. -/
structure Summary where
  totalCommits : Nat := 0
  totalPRs : Nat := 0
  totalIssues : Nat := 0
  totalLinesAdded : Nat := 0
  totalLinesDeleted : Nat := 0
  totalLinesModified : Nat := 0
  prsMerged : Nat := 0
  issuesClosed : Nat := 0
  repositories : List String := []
  periodStart : String := ""
  periodEnd : String := ""
deriving Repr, DecidableEq

/-- One contributor entry of a parsed AI-analysis response; only the field the
numeric pipeline reads back (`codeQualityScore`, Review.js:3468-3470) is
carried, as a rational (a JavaScript number). -/
structure AIContributor where
  codeQualityScore : Option ℚ := none
deriving Repr, DecidableEq

/-- A parsed AI-analysis response (`{summary, contributors}`). -/
structure AIAnalysis where
  summary : String
  contributors : List (String × AIContributor) := []
deriving Repr, DecidableEq

/-- The report accumulator object (Review.js:3120-3138). -/
structure Contributions where
  summary : Summary
  users : List (String × UserStats) := []
  repositories : List (String × RepoStats) := []
  aiAnalysis : Option AIAnalysis := none
deriving Repr, DecidableEq

/-! #### Association-list operations mirroring JavaScript object assignment -/

/-- JavaScript `obj[k] = v`: replace in place if the key exists, else append. -/
def alSet : List (String × β) → String → β → List (String × β)
  | [], k, v => [(k, v)]
  | (k2, v2) :: rest, k, v =>
    if k2 = k then (k2, v) :: rest else (k2, v2) :: alSet rest k v

/-- Mutation of an existing entry (`obj[k].field += ...`); a no-op when the
key is absent (the source only modifies keys it has initialized). -/
def alModify : List (String × β) → String → (β → β) → List (String × β)
  | [], _, _ => []
  | (k2, v2) :: rest, k, f =>
    if k2 = k then (k2, f v2) :: rest else (k2, v2) :: alModify rest k f

theorem alSet_fresh (m : List (String × β)) (k : String) (v : β)
    (h : k ∉ m.map Prod.fst) : alSet m k v = m ++ [(k, v)] := by
  induction m with
  | nil => rfl
  | cons p rest ih =>
    obtain ⟨k2, v2⟩ := p
    simp only [List.map_cons, List.mem_cons] at h
    push_neg at h
    have hne : ¬ k2 = k := fun hh => h.1 hh.symm
    simp only [alSet, if_neg hne, List.cons_append]
    rw [ih h.2]

theorem alModify_keys (m : List (String × β)) (k : String) (f : β → β) :
    (alModify m k f).map Prod.fst = m.map Prod.fst := by
  induction m with
  | nil => rfl
  | cons p rest ih =>
    obtain ⟨k2, v2⟩ := p
    by_cases h : k2 = k <;> simp [alModify, h, ih]

theorem alSet_keys_fresh (m : List (String × β)) (k : String) (v : β)
    (h : k ∉ m.map Prod.fst) :
    (alSet m k v).map Prod.fst = m.map Prod.fst ++ [k] := by
  rw [alSet_fresh m k v h]
  simp

theorem alModify_append_fresh (m : List (String × β)) (k : String) (v : β)
    (f : β → β) (h : k ∉ m.map Prod.fst) :
    alModify (m ++ [(k, v)]) k f = m ++ [(k, f v)] := by
  induction m with
  | nil => simp [alModify]
  | cons p rest ih =>
    obtain ⟨k2, v2⟩ := p
    simp only [List.map_cons, List.mem_cons] at h
    push_neg at h
    have hne : ¬ k2 = k := fun hh => h.1 hh.symm
    simp only [List.cons_append, alModify, if_neg hne]
    rw [← List.cons_append]
    congr 1
    exact ih h.2

theorem alModify_lookup_ne (m : List (String × β)) (k name : String) (f : β → β)
    (h : name ≠ k) : (alModify m k f).lookup name = m.lookup name := by
  induction m with
  | nil => rfl
  | cons p rest ih =>
    obtain ⟨k2, v2⟩ := p
    simp only [alModify]
    by_cases hk : k2 = k
    · subst hk
      have hb : (name == k2) = false := by simpa using h
      simp [List.lookup, hb]
    · rw [if_neg hk]
      cases hb : name == k2
      · simp [List.lookup, hb, ih]
      · simp [List.lookup, hb]

theorem alModify_lookup_eq (m : List (String × β)) (k : String) (f : β → β) :
    (alModify m k f).lookup k = (m.lookup k).map f := by
  induction m with
  | nil => rfl
  | cons p rest ih =>
    obtain ⟨k2, v2⟩ := p
    simp only [alModify]
    by_cases hk : k2 = k
    · subst hk
      simp [List.lookup]
    · rw [if_neg hk]
      have hb : (k == k2) = false := by
        simpa using fun hh => hk hh.symm
      simp [List.lookup, hb, ih]

theorem alSet_lookup_ne (m : List (String × β)) (k name : String) (v : β)
    (h : name ≠ k) : (alSet m k v).lookup name = m.lookup name := by
  induction m with
  | nil =>
    have hb : (name == k) = false := by simpa using h
    simp [alSet, List.lookup, hb]
  | cons p rest ih =>
    obtain ⟨k2, v2⟩ := p
    simp only [alSet]
    by_cases hk : k2 = k
    · subst hk
      have hb : (name == k2) = false := by simpa using h
      simp [List.lookup, hb]
    · rw [if_neg hk]
      cases hb : name == k2
      · simp [List.lookup, hb, ih]
      · simp [List.lookup, hb]

theorem alSet_lookup_eq (m : List (String × β)) (k : String) (v : β) :
    (alSet m k v).lookup k = some v := by
  induction m with
  | nil => simp [alSet, List.lookup]
  | cons p rest ih =>
    obtain ⟨k2, v2⟩ := p
    simp only [alSet]
    by_cases hk : k2 = k
    · subst hk
      simp [List.lookup]
    · rw [if_neg hk]
      have hb : (k == k2) = false := by
        simpa using fun hh => hk hh.symm
      simp [List.lookup, hb, ih]

/-- Sum of a numeric field over a repository-statistics map
(`Σ repositories[r].f`). -/
def repoSumBy (m : List (String × RepoStats)) (f : RepoStats → Nat) : Nat :=
  (m.map (fun p => f p.2)).sum

theorem repoSumBy_append (m m2 : List (String × RepoStats)) (f : RepoStats → Nat) :
    repoSumBy (m ++ m2) f = repoSumBy m f + repoSumBy m2 f := by
  simp [repoSumBy]

theorem repoSumBy_alModify_preserve (m : List (String × RepoStats)) (k : String)
    (g : RepoStats → RepoStats) (f : RepoStats → Nat)
    (h : ∀ v, f (g v) = f v) :
    repoSumBy (alModify m k g) f = repoSumBy m f := by
  induction m with
  | nil => rfl
  | cons p rest ih =>
    obtain ⟨k2, v2⟩ := p
    by_cases hk : k2 = k <;> simp [alModify, hk, repoSumBy, h, ih,
      repoSumBy] at ih ⊢ <;> omega

/-! #### Event processors of `generateContributionReport` -/

/-- Recursion core of `groupByKey`, structurally recursive on a fuel always
instantiated with the list length. -/
def groupByKeyGo {γ : Type u} (key : γ → String) :
    Nat → List γ → List (String × List γ)
  | _, [] => []
  | 0, _ :: _ => []
  | fuel+1, x :: xs =>
    (key x, x :: xs.filter (fun y => key y == key x))
      :: groupByKeyGo key fuel (xs.filter (fun y => key y != key x))

/-- Insertion-order grouping, mirroring the `Map`-building loops
(Review.js:3216-3223, 3333-3340, 3388-3395): one entry per distinct key, in
order of first occurrence, carrying that key's events. -/
def groupByKey {γ : Type u} (key : γ → String) (l : List γ) :
    List (String × List γ) :=
  groupByKeyGo key l.length l

theorem groupByKeyGo_fuel_irrel {γ : Type u} (key : γ → String) :
    ∀ (f1 : Nat) (l : List γ) (f2 : Nat), l.length ≤ f1 → l.length ≤ f2 →
      groupByKeyGo key f1 l = groupByKeyGo key f2 l := by
  intro f1
  induction f1 with
  | zero =>
    intro l f2 h1 h2
    cases l with
    | nil => cases f2 <;> rfl
    | cons x xs => simp at h1
  | succ n ih =>
    intro l f2 h1 h2
    cases l with
    | nil => cases f2 <;> rfl
    | cons x xs =>
      cases f2 with
      | zero => simp at h2
      | succ m =>
        simp only [groupByKeyGo]
        congr 1
        apply ih
        · have hf : (xs.filter (fun y => key y != key x)).length ≤ xs.length :=
            List.length_filter_le _ _
          simp only [List.length_cons] at h1
          omega
        · have hf : (xs.filter (fun y => key y != key x)).length ≤ xs.length :=
            List.length_filter_le _ _
          simp only [List.length_cons] at h2
          omega

theorem groupByKey_cons {γ : Type u} (key : γ → String) (x : γ) (xs : List γ) :
    groupByKey key (x :: xs)
      = (key x, x :: xs.filter (fun y => key y == key x))
        :: groupByKey key (xs.filter (fun y => key y != key x)) := by
  unfold groupByKey
  show groupByKeyGo key (xs.length + 1) (x :: xs) = _
  simp only [groupByKeyGo]
  congr 1
  exact groupByKeyGo_fuel_irrel key xs.length _ _
    (List.length_filter_le _ _) (Nat.le_refl _)

/-- Embedding of `initializeUserStats(usersObj, username)` with its optional
third argument (Review.js:1696-1725): create the user entry if absent, then,
when a repository key is supplied, create that per-repository entry if
absent. -/
def initializeUserStats (users : List (String × UserStats)) (username : String)
    (repoKeyArg : Option String) : List (String × UserStats) :=
  let users1 := match users.lookup username with
    | some _ => users
    | none => alSet users username {}
  match repoKeyArg with
  | none => users1
  | some rk =>
    alModify users1 username (fun u =>
      match u.repositories.lookup rk with
      | some _ => u
      | none => { u with repositories := alSet u.repositories rk {} })

/-- The external inputs of one pipeline run: the fetch layer (whose loops are
verified separately above) is abstracted by the data it delivers, and the
narrative scorer by its call outcome and response parsing. -/
structure FetchEnv where
  commitsFor : RepoRef → List Commit
  prsFor : RepoRef → List PullRequest
  issuesFor : RepoRef → List Issue
  linesFor : Commit → Option (Nat × Nat)
  apiKey : Option String := none
  detailedCall : Except String String := Except.error "network"
  basicCall : Except String String := Except.error "network"
  extractDetailed : String → Option AIAnalysis := fun _ => none
  extractBasic : String → Option AIAnalysis := fun _ => none

/-- Line-stat accumulation for one sampled commit (Review.js:3257-3306):
a failed detail fetch (`linesFor c = none`) is caught and skipped; otherwise
the summed additions and deletions are added to the user, the user's
per-repository entry, the repository entry, and the summary. -/
def processCommitLines (rk author : String) (linesFor : Commit → Option (Nat × Nat))
    (st : Contributions) (c : Commit) : Contributions :=
  match linesFor c with
  | none => st
  | some (add, del) =>
    { st with
      users := alModify st.users author (fun u =>
        { u with
          linesAdded := u.linesAdded + add
          linesDeleted := u.linesDeleted + del
          linesModified := u.linesModified + (add + del)
          repositories := alModify u.repositories rk (fun rs =>
            { rs with
              linesAdded := rs.linesAdded + add
              linesDeleted := rs.linesDeleted + del
              linesModified := rs.linesModified + (add + del) }) })
      repositories := alModify st.repositories rk (fun r =>
        { r with
          linesAdded := r.linesAdded + add
          linesDeleted := r.linesDeleted + del
          linesModified := r.linesModified + (add + del) })
      summary := { st.summary with
        totalLinesAdded := st.summary.totalLinesAdded + add
        totalLinesDeleted := st.summary.totalLinesDeleted + del
        totalLinesModified := st.summary.totalLinesModified + (add + del) } }

/-- Per-author commit processing (Review.js:3226-3308): ensure the user and
its per-repository entry exist, add the author's commit count, record the
contributor, and fold line stats over the bounded sample of at most 20
commits (`slice(0, 20)`). -/
def processCommitAuthor (rk : String) (linesFor : Commit → Option (Nat × Nat))
    (st : Contributions) (g : String × List Commit) : Contributions :=
  let author := g.1
  let cs := g.2
  let users1 := initializeUserStats st.users author none
  let users2 := initializeUserStats users1 author (some rk)
  let users3 := alModify users2 author (fun u =>
    { u with
      totalCommits := u.totalCommits + cs.length
      repositories := alModify u.repositories rk (fun rs =>
        { rs with commits := rs.commits + cs.length }) })
  let repos1 := alModify st.repositories rk (fun r =>
    if r.contributors.contains author then r
    else { r with contributors := r.contributors ++ [author] })
  (cs.take 20).foldl (processCommitLines rk author linesFor)
    { st with users := users3, repositories := repos1 }

/-- The commit processor of one repository (Review.js:3202-3311): the summary
total grows by the fetched commit count, the repository entry's `commits` is
assigned that count, and, when any commits exist, the per-author fold runs
over the insertion-order author groups. -/
def processCommits (rk : String) (linesFor : Commit → Option (Nat × Nat))
    (commits : List Commit) (st : Contributions) : Contributions :=
  let st1 := { st with
    summary := { st.summary with
      totalCommits := st.summary.totalCommits + commits.length }
    repositories := alModify st.repositories rk (fun r =>
      { r with commits := commits.length }) }
  if commits.isEmpty then st1
  else (groupByKey commitAuthor commits).foldl
    (processCommitAuthor rk linesFor) st1

/-- Per-author pull-request processing (Review.js:3343-3360). -/
def processPRAuthor (rk : String) (st : Contributions)
    (g : String × List PullRequest) : Contributions :=
  let author := g.1
  let ps := g.2
  let users1 := initializeUserStats st.users author none
  let users2 := initializeUserStats users1 author (some rk)
  let users3 := alModify users2 author (fun u =>
    { u with
      totalPRs := u.totalPRs + ps.length
      repositories := alModify u.repositories rk (fun rs =>
        { rs with pullRequests := rs.pullRequests + ps.length }) })
  let repos1 := alModify st.repositories rk (fun r =>
    if r.contributors.contains author then r
    else { r with contributors := r.contributors ++ [author] })
  { st with users := users3, repositories := repos1 }

/-- The pull-request processor of one repository (Review.js:3314-3363):
summary totals and the repository entry's counts (including merged PRs) are
set before the empty-list early return, then authors are processed. -/
def processPRs (rk : String) (prs : List PullRequest) (st : Contributions) :
    Contributions :=
  let merged := prs.filter (fun p => p.mergedAt.isSome)
  let st1 := { st with
    summary := { st.summary with
      totalPRs := st.summary.totalPRs + prs.length
      prsMerged := st.summary.prsMerged + merged.length }
    repositories := alModify st.repositories rk (fun r =>
      { r with pullRequests := prs.length, prsMerged := merged.length }) }
  if prs.isEmpty then st1
  else (groupByKey PullRequest.userLogin prs).foldl (processPRAuthor rk) st1

/-- Per-author issue processing (Review.js:3398-3415). -/
def processIssueAuthor (rk : String) (st : Contributions)
    (g : String × List Issue) : Contributions :=
  let author := g.1
  let is := g.2
  let users1 := initializeUserStats st.users author none
  let users2 := initializeUserStats users1 author (some rk)
  let users3 := alModify users2 author (fun u =>
    { u with
      totalIssues := u.totalIssues + is.length
      repositories := alModify u.repositories rk (fun rs =>
        { rs with issues := rs.issues + is.length }) })
  let repos1 := alModify st.repositories rk (fun r =>
    if r.contributors.contains author then r
    else { r with contributors := r.contributors ++ [author] })
  { st with users := users3, repositories := repos1 }

/-- The issue processor of one repository (Review.js:3366-3418): an empty
fetch returns before any count is written; otherwise pull requests are
filtered out of the issue list, counts are set, and authors are processed. -/
def processIssues (rk : String) (issues : List Issue) (st : Contributions) :
    Contributions :=
  if issues.isEmpty then st
  else
    let actualIssues := issues.filter (fun i => !i.isPullRequest)
    let closed := actualIssues.filter (fun i => i.state == "closed")
    let st1 := { st with
      summary := { st.summary with
        totalIssues := st.summary.totalIssues + actualIssues.length
        issuesClosed := st.summary.issuesClosed + closed.length }
      repositories := alModify st.repositories rk (fun r =>
        { r with issues := actualIssues.length, issuesClosed := closed.length }) }
    (groupByKey Issue.userLogin actualIssues).foldl (processIssueAuthor rk) st1

/-- Processing of one repository (Review.js:3172-3426): initialize the
repository entry (plain assignment, Review.js:3179), then run the three event
processors on the fetched data.  The three run concurrently in the source but
mutate disjoint statistic fields, so program order is one of their equivalent
interleavings. -/
def processRepo (env : FetchEnv) (st : Contributions) (r : RepoRef) :
    Contributions :=
  let rk := repoKey r
  let st0 := { st with repositories := alSet st.repositories rk {} }
  let st1 := processCommits rk env.linesFor (env.commitsFor r) st0
  let st2 := processPRs rk (env.prsFor r) st1
  processIssues rk (env.issuesFor r) st2

/-- The priority reordering of the configured repositories
(Review.js:3144-3153): a stable sort whose comparator moves repositories
named exactly `arch-network` (the single entry of `primaryRepos`, compared by
`indexOf`) to the front and otherwise keeps the original order — equivalently
a stable partition. -/
def prioritySort (repos : List RepoRef) : List RepoRef :=
  repos.filter (fun r => r.repo == "arch-network")
    ++ repos.filter (fun r => r.repo != "arch-network")

/-- Run configuration: the memory-optimized flag (`MEMORY_OPTIMIZED`), the
repository cap (`MAX_REPOS`, default 3) applied only in memory-optimized
mode, and the `SKIP_AI_ANALYSIS` flag. -/
structure PipelineConfig where
  memoryOptimized : Bool := false
  maxRepos : Nat := 3
  skipAIAnalysis : Bool := false

/-- The repositories a run actually processes (Review.js:3156-3162): all of
them in priority order, truncated to `maxRepos` in memory-optimized mode. -/
def reposToProcess (repos : List RepoRef) (cfg : PipelineConfig) : List RepoRef :=
  if cfg.memoryOptimized then (prioritySort repos).take cfg.maxRepos
  else prioritySort repos

/-- The scoring pass (Review.js:3447-3455): every user's activity score is
`commits*3 + PRs*5 + issues*1` and the effort grade is derived from it. -/
def computeScores (st : Contributions) : Contributions :=
  { st with
    users := st.users.map (fun p =>
      let u := p.2
      let score := u.totalCommits * 3 + u.totalPRs * 5 + u.totalIssues * 1
      (p.1, { u with
        activityScore := score
        effortGrade := calculateEffortGrade u.linesModified score })) }

/-- Data collection and scoring: the repository chunks (concurrency 2 in
memory-optimized mode, else 5; Review.js:3164-3168) folded over the initial
accumulator, then the scoring pass. -/
def collectAndScore (repos : List RepoRef) (cfg : PipelineConfig)
    (env : FetchEnv) : Contributions :=
  let initial : Contributions :=
    { summary := { repositories := repos.map repoKey } }
  let limit := if cfg.memoryOptimized then 2 else 5
  computeScores
    ((chunkArray (reposToProcess repos cfg) limit).foldl
      (fun st chunk => chunk.foldl (processRepo env) st) initial)

/-! #### The AI-analysis stage (Review.js:2834-3086, 2064-2181, 3457-3484) -/

/-- JavaScript truthiness of an optional string (absent or empty is falsy). -/
def truthyStr : Option String → Bool
  | none => false
  | some s => s != ""

/-- Descending insertion by activity score, modelling
`.sort((a, b) => b.activityScore - a.activityScore)`; ties may differ from
the stable JavaScript order, on which no verified property depends. -/
def insertByScore (x : String × UserStats) :
    List (String × UserStats) → List (String × UserStats)
  | [] => [x]
  | y :: ys =>
    if x.2.activityScore > y.2.activityScore then x :: y :: ys
    else y :: insertByScore x ys

/-- Sort of the projected contributor list, descending by activity score. -/
def sortByScoreDesc (users : List (String × UserStats)) :
    List (String × UserStats) :=
  users.foldl (fun acc x => insertByScore x acc) []

/-- The canned result returned when there are no contributors to analyze
(Review.js:2960-2965). -/
def emptyAIAnalysis : AIAnalysis :=
  { summary := "No significant contributions found in the analyzed repositories during this period."
    contributors := [] }

/-- Embedding of `generateDetailedAIAnalysis(contributionData)`
(Review.js:2834-3086).  The contributor projection keeps the top five by
activity score; with no contributors the canned empty analysis is returned
before the API key is even read; otherwise a missing key, a failed call, or a
response without an extractable JSON object all degrade to `none` (the
source's `null`), which the enclosing try/catch also produces for any other
failure. -/
def generateDetailedAIAnalysis (users : List (String × UserStats))
    (apiKey : Option String) (callOutcome : Except String String)
    (extractJson : String → Option AIAnalysis) : Option AIAnalysis :=
  let contributors := (sortByScoreDesc users).take 5
  if contributors.isEmpty then some emptyAIAnalysis
  else if !(truthyStr apiKey) then none
  else match callOutcome with
    | Except.error _ => none
    | Except.ok content =>
      match extractJson content with
      | some j => some j
      | none => none

/-- Embedding of the basic `generateAIAnalysis(contributionData)`
(Review.js:2064-2181), which has the same control flow as the detailed
variant with a different prompt. -/
def generateAIAnalysis (users : List (String × UserStats))
    (apiKey : Option String) (callOutcome : Except String String)
    (extractJson : String → Option AIAnalysis) : Option AIAnalysis :=
  let contributors := (sortByScoreDesc users).take 5
  if contributors.isEmpty then some emptyAIAnalysis
  else if !(truthyStr apiKey) then none
  else match callOutcome with
    | Except.error _ => none
    | Except.ok content =>
      match extractJson content with
      | some j => some j
      | none => none

/-- Attachment of a successful detailed analysis (Review.js:3462-3473): the
analysis is stored on the report and, for every analyzed contributor that
exists in `users` and has a truthy (non-zero) quality score, the code-quality
grade is recomputed from that score. -/
def applyAIAnalysis (st : Contributions) (ai : AIAnalysis) : Contributions :=
  { st with
    aiAnalysis := some ai
    users := ai.contributors.foldl (fun us p =>
      match us.lookup p.1, p.2.codeQualityScore with
      | some _, some q =>
        if q ≠ 0 then
          alModify us p.1 (fun u =>
            { u with codeQualityGrade := convertScoreToGrade q })
        else us
      | _, _ => us) st.users }

/-- The AI stage of the pipeline (Review.js:3457-3484): skipped entirely by
the flag; otherwise the detailed analysis is attached when it succeeds, else
the basic analysis is attached when it succeeds, else the report is left
untouched. -/
def aiStage (skipAI : Bool) (apiKey : Option String)
    (detailedCall basicCall : Except String String)
    (extractDetailed extractBasic : String → Option AIAnalysis)
    (st : Contributions) : Contributions :=
  if skipAI then st
  else match generateDetailedAIAnalysis st.users apiKey detailedCall extractDetailed with
    | some ai => applyAIAnalysis st ai
    | none =>
      match generateAIAnalysis st.users apiKey basicCall extractBasic with
      | some ai => { st with aiAnalysis := some ai }
      | none => st

/-- Embedding of `generateContributionReport()` (Review.js:3091-3488): data
collection and scoring followed by the optional AI stage.  The detailed
content fetch (Review.js:3431-3444) only appends `codeContent` samples read
by the prompt builder and touches no field modelled here. -/
def generateContributionReport (repos : List RepoRef) (cfg : PipelineConfig)
    (env : FetchEnv) : Contributions :=
  aiStage cfg.skipAIAnalysis env.apiKey env.detailedCall env.basicCall
    env.extractDetailed env.extractBasic (collectAndScore repos cfg env)

/-! #### Frame lemmas: what the per-author folds leave untouched -/

/-- Within the processing of repository `rk`, every sub-step preserves the
summary's commit and PR totals, the AI field, and — when the repository map
ends with the freshly created `rk` entry — that shape, the entry's `commits`
and `pullRequests` counts, and all other entries. -/
def RepoFrame (rk : String) (φ : Contributions → Contributions) : Prop :=
  ∀ st : Contributions,
    (φ st).summary.totalCommits = st.summary.totalCommits
    ∧ (φ st).summary.totalPRs = st.summary.totalPRs
    ∧ (φ st).aiAnalysis = st.aiAnalysis
    ∧ ∀ m v, rk ∉ m.map Prod.fst → st.repositories = m ++ [(rk, v)] →
        ∃ v2, (φ st).repositories = m ++ [(rk, v2)]
          ∧ v2.commits = v.commits ∧ v2.pullRequests = v.pullRequests

theorem repoFrame_id (rk : String) : RepoFrame rk id := by
  intro st
  exact ⟨rfl, rfl, rfl, fun m v _ h => ⟨v, h, rfl, rfl⟩⟩

theorem repoFrame_comp (rk : String) (φ ψ : Contributions → Contributions)
    (hφ : RepoFrame rk φ) (hψ : RepoFrame rk ψ) :
    RepoFrame rk (fun st => ψ (φ st)) := by
  intro st
  obtain ⟨h1, h2, h3, h4⟩ := hφ st
  obtain ⟨g1, g2, g3, g4⟩ := hψ (φ st)
  refine ⟨g1.trans h1, g2.trans h2, g3.trans h3, ?_⟩
  intro m v hm hrep
  obtain ⟨v2, hrep2, hc2, hp2⟩ := h4 m v hm hrep
  obtain ⟨v3, hrep3, hc3, hp3⟩ := g4 m v2 hm hrep2
  exact ⟨v3, hrep3, hc3.trans hc2, hp3.trans hp2⟩

theorem repoFrame_foldl {γ : Type u} (rk : String)
    (φ : Contributions → γ → Contributions) (l : List γ)
    (h : ∀ a, RepoFrame rk (fun st => φ st a)) :
    RepoFrame rk (fun st => l.foldl φ st) := by
  induction l with
  | nil => exact repoFrame_id rk
  | cons a as ih =>
    have := repoFrame_comp rk (fun st => φ st a) (fun st => as.foldl φ st)
      (h a) ih
    simpa using this

/-- A repository-map modification at key `rk` that keeps the `commits` and
`pullRequests` fields is a `RepoFrame` step when the summary's two totals and
the AI field are untouched. -/
theorem repoFrame_of_alModify (rk : String) (φ : Contributions → Contributions)
    (g : RepoStats → RepoStats)
    (hsum : ∀ st, (φ st).summary.totalCommits = st.summary.totalCommits
      ∧ (φ st).summary.totalPRs = st.summary.totalPRs
      ∧ (φ st).aiAnalysis = st.aiAnalysis)
    (hrep : ∀ st, (φ st).repositories = alModify st.repositories rk g
        ∨ (φ st).repositories = st.repositories)
    (hg : ∀ v, (g v).commits = v.commits ∧ (g v).pullRequests = v.pullRequests) :
    RepoFrame rk φ := by
  intro st
  obtain ⟨h1, h2, h3⟩ := hsum st
  refine ⟨h1, h2, h3, ?_⟩
  intro m v hm hr
  rcases hrep st with h | h
  · refine ⟨g v, ?_, (hg v).1, (hg v).2⟩
    rw [h, hr, alModify_append_fresh m rk v g hm]
  · exact ⟨v, by rw [h, hr], rfl, rfl⟩

theorem repoFrame_processCommitLines (rk author : String)
    (linesFor : Commit → Option (Nat × Nat)) (c : Commit) :
    RepoFrame rk (fun st => processCommitLines rk author linesFor st c) := by
  intro st
  unfold processCommitLines
  cases h : linesFor c with
  | none => exact ⟨rfl, rfl, rfl, fun m v _ hrep => ⟨v, hrep, rfl, rfl⟩⟩
  | some p =>
    obtain ⟨add, del⟩ := p
    refine ⟨rfl, rfl, rfl, ?_⟩
    intro m v hm hrep
    refine ⟨{ v with
      linesAdded := v.linesAdded + add
      linesDeleted := v.linesDeleted + del
      linesModified := v.linesModified + (add + del) }, ?_, rfl, rfl⟩
    simp only [hrep]
    exact alModify_append_fresh m rk v _ hm

theorem repoFrame_processCommitAuthor (rk : String)
    (linesFor : Commit → Option (Nat × Nat)) (g : String × List Commit) :
    RepoFrame rk (fun st => processCommitAuthor rk linesFor st g) := by
  intro st
  have hfold := repoFrame_foldl rk (processCommitLines rk g.1 linesFor)
    (g.2.take 20) (fun c => repoFrame_processCommitLines rk g.1 linesFor c)
  set st1 : Contributions :=
    { st with
      users := alModify
        (initializeUserStats (initializeUserStats st.users g.1 none) g.1 (some rk)) g.1
        (fun u =>
          { u with
            totalCommits := u.totalCommits + g.2.length
            repositories := alModify u.repositories rk (fun rs =>
              { rs with commits := rs.commits + g.2.length }) })
      repositories := alModify st.repositories rk (fun r =>
        if r.contributors.contains g.1 then r
        else { r with contributors := r.contributors ++ [g.1] }) } with hst1
  have hdef : processCommitAuthor rk linesFor st g
      = (g.2.take 20).foldl (processCommitLines rk g.1 linesFor) st1 := rfl
  obtain ⟨f1, f2, f3, f4⟩ := hfold st1
  refine ⟨f1, f2, f3, ?_⟩
  intro m v hm hrep
  have hrep1 : st1.repositories
      = m ++ [(rk, if v.contributors.contains g.1 then v
          else { v with contributors := v.contributors ++ [g.1] })] := by
    rw [hst1]
    show alModify st.repositories rk _ = _
    rw [hrep, alModify_append_fresh m rk v _ hm]
  obtain ⟨v2, hrep2, hc2, hp2⟩ := f4 m _ hm hrep1
  refine ⟨v2, hrep2, ?_, ?_⟩
  · rw [hc2]
    split <;> rfl
  · rw [hp2]
    split <;> rfl

theorem repoFrame_processPRAuthor (rk : String) (g : String × List PullRequest) :
    RepoFrame rk (fun st => processPRAuthor rk st g) := by
  intro st
  refine ⟨rfl, rfl, rfl, ?_⟩
  intro m v hm hrep
  refine ⟨if v.contributors.contains g.1 then v
      else { v with contributors := v.contributors ++ [g.1] }, ?_, ?_, ?_⟩
  · show alModify st.repositories rk _ = _
    rw [hrep, alModify_append_fresh m rk v _ hm]
  · split <;> rfl
  · split <;> rfl

theorem repoFrame_processIssueAuthor (rk : String) (g : String × List Issue) :
    RepoFrame rk (fun st => processIssueAuthor rk st g) := by
  intro st
  refine ⟨rfl, rfl, rfl, ?_⟩
  intro m v hm hrep
  refine ⟨if v.contributors.contains g.1 then v
      else { v with contributors := v.contributors ++ [g.1] }, ?_, ?_, ?_⟩
  · show alModify st.repositories rk _ = _
    rw [hrep, alModify_append_fresh m rk v _ hm]
  · split <;> rfl
  · split <;> rfl

/-! #### Net effect of one repository on the counted totals -/

theorem processCommits_counts (rk : String) (linesFor : Commit → Option (Nat × Nat))
    (cs : List Commit) (st : Contributions) (m : List (String × RepoStats))
    (v : RepoStats) (hm : rk ∉ m.map Prod.fst)
    (hrep : st.repositories = m ++ [(rk, v)]) :
    ∃ v2, (processCommits rk linesFor cs st).repositories = m ++ [(rk, v2)]
      ∧ v2.commits = cs.length ∧ v2.pullRequests = v.pullRequests
      ∧ (processCommits rk linesFor cs st).summary.totalCommits
          = st.summary.totalCommits + cs.length
      ∧ (processCommits rk linesFor cs st).summary.totalPRs = st.summary.totalPRs
      ∧ (processCommits rk linesFor cs st).aiAnalysis = st.aiAnalysis := by
  set st1 : Contributions :=
    { st with
      summary := { st.summary with
        totalCommits := st.summary.totalCommits + cs.length }
      repositories := alModify st.repositories rk (fun r =>
        { r with commits := cs.length }) } with hst1
  have hrep1 : st1.repositories = m ++ [(rk, { v with commits := cs.length })] := by
    rw [hst1]
    show alModify st.repositories rk _ = _
    rw [hrep, alModify_append_fresh m rk v _ hm]
  by_cases hempty : cs.isEmpty
  · have hdef : processCommits rk linesFor cs st = st1 := by
      unfold processCommits
      rw [if_pos hempty]
    refine ⟨{ v with commits := cs.length }, ?_, rfl, rfl, ?_, ?_, ?_⟩ <;>
      rw [hdef] <;> first | exact hrep1 | rfl
  · have hdef : processCommits rk linesFor cs st
        = (groupByKey commitAuthor cs).foldl (processCommitAuthor rk linesFor) st1 := by
      unfold processCommits
      rw [if_neg hempty]
    obtain ⟨f1, f2, f3, f4⟩ := repoFrame_foldl rk (processCommitAuthor rk linesFor)
      (groupByKey commitAuthor cs)
      (fun g => repoFrame_processCommitAuthor rk linesFor g) st1
    obtain ⟨v2, hrep2, hc2, hp2⟩ := f4 m _ hm hrep1
    rw [hdef]
    exact ⟨v2, hrep2, hc2, hp2, f1, f2, f3⟩

theorem processPRs_counts (rk : String) (prs : List PullRequest)
    (st : Contributions) (m : List (String × RepoStats)) (v : RepoStats)
    (hm : rk ∉ m.map Prod.fst) (hrep : st.repositories = m ++ [(rk, v)]) :
    ∃ v2, (processPRs rk prs st).repositories = m ++ [(rk, v2)]
      ∧ v2.commits = v.commits ∧ v2.pullRequests = prs.length
      ∧ (processPRs rk prs st).summary.totalCommits = st.summary.totalCommits
      ∧ (processPRs rk prs st).summary.totalPRs = st.summary.totalPRs + prs.length
      ∧ (processPRs rk prs st).aiAnalysis = st.aiAnalysis := by
  set st1 : Contributions :=
    { st with
      summary := { st.summary with
        totalPRs := st.summary.totalPRs + prs.length
        prsMerged := st.summary.prsMerged
          + (prs.filter (fun p => p.mergedAt.isSome)).length }
      repositories := alModify st.repositories rk (fun r =>
        { r with
          pullRequests := prs.length
          prsMerged := (prs.filter (fun p => p.mergedAt.isSome)).length }) } with hst1
  have hrep1 : st1.repositories
      = m ++ [(rk, { v with
          pullRequests := prs.length
          prsMerged := (prs.filter (fun p => p.mergedAt.isSome)).length })] := by
    rw [hst1]
    show alModify st.repositories rk _ = _
    rw [hrep, alModify_append_fresh m rk v _ hm]
  by_cases hempty : prs.isEmpty
  · have hdef : processPRs rk prs st = st1 := by
      unfold processPRs
      rw [if_pos hempty]
    refine ⟨{ v with
        pullRequests := prs.length
        prsMerged := (prs.filter (fun p => p.mergedAt.isSome)).length },
      ?_, rfl, rfl, ?_, ?_, ?_⟩ <;>
      rw [hdef] <;> first | exact hrep1 | rfl
  · have hdef : processPRs rk prs st
        = (groupByKey PullRequest.userLogin prs).foldl (processPRAuthor rk) st1 := by
      unfold processPRs
      rw [if_neg hempty]
    obtain ⟨f1, f2, f3, f4⟩ := repoFrame_foldl rk (processPRAuthor rk)
      (groupByKey PullRequest.userLogin prs)
      (fun g => repoFrame_processPRAuthor rk g) st1
    obtain ⟨v2, hrep2, hc2, hp2⟩ := f4 m _ hm hrep1
    rw [hdef]
    exact ⟨v2, hrep2, hc2, hp2, f1, f2, f3⟩

theorem processIssues_frame (rk : String) (issues : List Issue) :
    RepoFrame rk (fun st => processIssues rk issues st) := by
  intro st
  dsimp only
  by_cases hempty : issues.isEmpty
  · have hdef : processIssues rk issues st = st := by
      unfold processIssues
      rw [if_pos hempty]
    rw [hdef]
    exact ⟨rfl, rfl, rfl, fun m v _ hrep => ⟨v, hrep, rfl, rfl⟩⟩
  · set actual := issues.filter (fun i => !i.isPullRequest) with hact
    set st1 : Contributions :=
      { st with
        summary := { st.summary with
          totalIssues := st.summary.totalIssues + actual.length
          issuesClosed := st.summary.issuesClosed
            + (actual.filter (fun i => i.state == "closed")).length }
        repositories := alModify st.repositories rk (fun r =>
          { r with
            issues := actual.length
            issuesClosed := (actual.filter (fun i => i.state == "closed")).length }) }
      with hst1
    have hdef : processIssues rk issues st
        = (groupByKey Issue.userLogin actual).foldl (processIssueAuthor rk) st1 := by
      unfold processIssues
      rw [if_neg hempty]
    rw [hdef]
    obtain ⟨f1, f2, f3, f4⟩ := repoFrame_foldl rk (processIssueAuthor rk)
      (groupByKey Issue.userLogin actual)
      (fun g => repoFrame_processIssueAuthor rk g) st1
    refine ⟨f1, f2, f3, ?_⟩
    intro m v hm hrep
    have hrep1 : st1.repositories
        = m ++ [(rk, { v with
            issues := actual.length
            issuesClosed := (actual.filter (fun i => i.state == "closed")).length })] := by
      rw [hst1]
      show alModify st.repositories rk _ = _
      rw [hrep, alModify_append_fresh m rk v _ hm]
    obtain ⟨v2, hrep2, hc2, hp2⟩ := f4 m _ hm hrep1
    exact ⟨v2, hrep2, hc2, hp2⟩

/-- Processing one repository with a fresh key appends exactly one entry for
it, raises the summary's commit and PR totals by the fetched counts, and
stores those same counts in the new entry. -/
theorem processRepo_counts (env : FetchEnv) (st : Contributions) (r : RepoRef)
    (hfresh : repoKey r ∉ st.repositories.map Prod.fst) :
    ∃ v2, (processRepo env st r).repositories = st.repositories ++ [(repoKey r, v2)]
      ∧ v2.commits = (env.commitsFor r).length
      ∧ v2.pullRequests = (env.prsFor r).length
      ∧ (processRepo env st r).summary.totalCommits
          = st.summary.totalCommits + (env.commitsFor r).length
      ∧ (processRepo env st r).summary.totalPRs
          = st.summary.totalPRs + (env.prsFor r).length
      ∧ (processRepo env st r).aiAnalysis = st.aiAnalysis := by
  set rk := repoKey r with hrk
  set st0 : Contributions :=
    { st with repositories := alSet st.repositories rk {} } with hst0
  have hrep0 : st0.repositories = st.repositories ++ [(rk, ({} : RepoStats))] := by
    rw [hst0]
    exact alSet_fresh st.repositories rk ({} : RepoStats) hfresh
  have hdef : processRepo env st r
      = processIssues rk (env.issuesFor r)
          (processPRs rk (env.prsFor r)
            (processCommits rk env.linesFor (env.commitsFor r) st0)) := rfl
  obtain ⟨v1, hrep1, hc1, hp1, hs1, hs1p, ha1⟩ :=
    processCommits_counts rk env.linesFor (env.commitsFor r) st0
      st.repositories ({} : RepoStats) hfresh hrep0
  obtain ⟨v2, hrep2, hc2, hp2, hs2, hs2p, ha2⟩ :=
    processPRs_counts rk (env.prsFor r)
      (processCommits rk env.linesFor (env.commitsFor r) st0)
      st.repositories v1 hfresh hrep1
  obtain ⟨f1, f2, f3, f4⟩ := processIssues_frame rk (env.issuesFor r)
    (processPRs rk (env.prsFor r)
      (processCommits rk env.linesFor (env.commitsFor r) st0))
  obtain ⟨v3, hrep3, hc3, hp3⟩ := f4 st.repositories v2 hfresh hrep2
  rw [hdef]
  refine ⟨v3, hrep3, ?_, ?_, ?_, ?_, ?_⟩
  · rw [hc3, hc2, hc1]
  · rw [hp3, hp2]
  · rw [f1, hs2, hs1]
  · rw [f2, hs2p, hs1p]
  · rw [f3, ha2, ha1]

/-! #### The completeness invariant (C2) -/

theorem foldl_processRepo_inv (env : FetchEnv) (rs : List RepoRef)
    (st : Contributions)
    (hnd : (st.repositories.map Prod.fst ++ rs.map repoKey).Nodup)
    (hC : st.summary.totalCommits = repoSumBy st.repositories (fun x => x.commits))
    (hP : st.summary.totalPRs
        = repoSumBy st.repositories (fun x => x.pullRequests)) :
    (rs.foldl (processRepo env) st).summary.totalCommits
      = repoSumBy (rs.foldl (processRepo env) st).repositories (fun x => x.commits)
    ∧ (rs.foldl (processRepo env) st).summary.totalPRs
      = repoSumBy (rs.foldl (processRepo env) st).repositories
          (fun x => x.pullRequests)
    ∧ (rs.foldl (processRepo env) st).aiAnalysis = st.aiAnalysis := by
  induction rs generalizing st with
  | nil => exact ⟨hC, hP, rfl⟩
  | cons r rest ih =>
    have hdisj : List.Disjoint (st.repositories.map Prod.fst)
        ((r :: rest).map repoKey) := List.disjoint_of_nodup_append hnd
    have hfresh : repoKey r ∉ st.repositories.map Prod.fst := by
      intro hmem
      exact hdisj hmem (by simp)
    obtain ⟨v2, hrep, hc, hp, hsC, hsP, hai⟩ := processRepo_counts env st r hfresh
    have hkeys : (processRepo env st r).repositories.map Prod.fst
        = st.repositories.map Prod.fst ++ [repoKey r] := by
      rw [hrep]
      simp
    have hnd2 : ((processRepo env st r).repositories.map Prod.fst
        ++ rest.map repoKey).Nodup := by
      rw [hkeys, List.append_assoc]
      simpa using hnd
    have hC2 : (processRepo env st r).summary.totalCommits
        = repoSumBy (processRepo env st r).repositories (fun x => x.commits) := by
      rw [hsC, hrep, repoSumBy_append, hC]
      simp [repoSumBy, hc]
    have hP2 : (processRepo env st r).summary.totalPRs
        = repoSumBy (processRepo env st r).repositories
            (fun x => x.pullRequests) := by
      rw [hsP, hrep, repoSumBy_append, hP]
      simp [repoSumBy, hp]
    obtain ⟨g1, g2, g3⟩ := ih (processRepo env st r) hnd2 hC2 hP2
    exact ⟨g1, g2, g3.trans hai⟩

theorem reposToProcess_keys_nodup (repos : List RepoRef) (cfg : PipelineConfig)
    (hnd : (repos.map repoKey).Nodup) :
    ((reposToProcess repos cfg).map repoKey).Nodup := by
  have hperm : List.Perm ((prioritySort repos).map repoKey)
      (repos.map repoKey) :=
    (List.filter_append_perm _ repos).map repoKey
  have hsorted : ((prioritySort repos).map repoKey).Nodup :=
    (List.Perm.nodup_iff hperm).mpr hnd
  unfold reposToProcess
  split
  · rw [List.map_take]
    exact hsorted.sublist (List.take_sublist _ _)
  · exact hsorted

theorem collectAndScore_eq_foldl (repos : List RepoRef) (cfg : PipelineConfig)
    (env : FetchEnv) :
    collectAndScore repos cfg env
      = computeScores ((reposToProcess repos cfg).foldl (processRepo env)
          { summary := { repositories := repos.map repoKey } }) := by
  unfold collectAndScore
  dsimp only
  have hpos : 0 < (if cfg.memoryOptimized then 2 else 5) := by
    split <;> omega
  rw [foldl_chunks, chunkArray_join _ _ hpos]

theorem aiStage_summary_repositories (skipAI : Bool) (apiKey : Option String)
    (dc bc : Except String String) (ed eb : String → Option AIAnalysis)
    (st : Contributions) :
    (aiStage skipAI apiKey dc bc ed eb st).summary = st.summary
    ∧ (aiStage skipAI apiKey dc bc ed eb st).repositories = st.repositories := by
  unfold aiStage
  by_cases h : skipAI
  · rw [if_pos h]
    exact ⟨rfl, rfl⟩
  · rw [if_neg h]
    cases generateDetailedAIAnalysis st.users apiKey dc ed with
    | some ai => exact ⟨rfl, rfl⟩
    | none =>
      cases generateAIAnalysis st.users apiKey bc eb with
      | some ai => exact ⟨rfl, rfl⟩
      | none => exact ⟨rfl, rfl⟩

/-- C2 (amended) — Every report produced by `generateContributionReport`
whose configured repositories have pairwise distinct `owner/repo` keys (as in
the default configuration, and any configuration without duplicate entries)
satisfies `summary.totalCommits = Σ over r of repositories[r].commits` and
`summary.totalPRs = Σ over r of repositories[r].pullRequests`, including in
memory-optimized mode, where only a prefix of the priority-ordered configured
repositories is processed.  With a duplicated configured repository the
invariant fails, because the duplicate's summary contributions accumulate
(`+=`) while its repository entry is re-initialized and overwritten (`=`). -/
theorem generateContributionReport_totals (repos : List RepoRef)
    (cfg : PipelineConfig) (env : FetchEnv)
    (hnd : (repos.map repoKey).Nodup) :
    (generateContributionReport repos cfg env).summary.totalCommits
      = repoSumBy (generateContributionReport repos cfg env).repositories
          (fun x => x.commits)
    ∧ (generateContributionReport repos cfg env).summary.totalPRs
      = repoSumBy (generateContributionReport repos cfg env).repositories
          (fun x => x.pullRequests) := by
  have hinit : ((({ summary := { repositories := repos.map repoKey } }
      : Contributions).repositories.map Prod.fst)
      ++ (reposToProcess repos cfg).map repoKey).Nodup := by
    simpa using reposToProcess_keys_nodup repos cfg hnd
  obtain ⟨h1, h2, _⟩ := foldl_processRepo_inv env (reposToProcess repos cfg)
    { summary := { repositories := repos.map repoKey } } hinit rfl rfl
  obtain ⟨hsum, hrep⟩ := aiStage_summary_repositories cfg.skipAIAnalysis
    env.apiKey env.detailedCall env.basicCall env.extractDetailed
    env.extractBasic (collectAndScore repos cfg env)
  have hreport : generateContributionReport repos cfg env
      = aiStage cfg.skipAIAnalysis env.apiKey env.detailedCall env.basicCall
          env.extractDetailed env.extractBasic (collectAndScore repos cfg env) := rfl
  rw [hreport]
  rw [hsum, hrep, collectAndScore_eq_foldl]
  exact ⟨h1, h2⟩

/-- Concrete input for the C2 witness: two distinct repositories, one commit
and one PR in the first, nothing in the second. -/
def envTwoRepos : FetchEnv :=
  { commitsFor := fun r =>
      if r.repo == "r1" then [Commit.mk "s1" (some "alice") none] else []
    prsFor := fun r =>
      if r.repo == "r1" then [PullRequest.mk 1 "bob" none] else []
    issuesFor := fun _ => []
    linesFor := fun _ => none }

/-- Witness for C2 (amended) at the concrete two-repository input. -/
theorem generateContributionReport_totals_witness :
    ([RepoRef.mk "o" "r1", RepoRef.mk "o" "r2"].map repoKey).Nodup
    ∧ (generateContributionReport [RepoRef.mk "o" "r1", RepoRef.mk "o" "r2"]
        { skipAIAnalysis := true } envTwoRepos).summary.totalCommits
      = repoSumBy (generateContributionReport
          [RepoRef.mk "o" "r1", RepoRef.mk "o" "r2"]
          { skipAIAnalysis := true } envTwoRepos).repositories
          (fun x => x.commits)
    ∧ (generateContributionReport [RepoRef.mk "o" "r1", RepoRef.mk "o" "r2"]
        { skipAIAnalysis := true } envTwoRepos).summary.totalPRs
      = repoSumBy (generateContributionReport
          [RepoRef.mk "o" "r1", RepoRef.mk "o" "r2"]
          { skipAIAnalysis := true } envTwoRepos).repositories
          (fun x => x.pullRequests) :=
  ⟨by decide,
    (generateContributionReport_totals _ _ _ (by decide)).1,
    (generateContributionReport_totals _ _ _ (by decide)).2⟩

/-- Concrete input for the C2 counterexample: the same repository configured
twice, with a single commit visible in it. -/
def envDupRepo : FetchEnv :=
  { commitsFor := fun _ => [Commit.mk "s1" (some "alice") none]
    prsFor := fun _ => []
    issuesFor := fun _ => []
    linesFor := fun _ => none }

/-- Counterexample to C2 as stated: with the same repository configured
twice, the summary counts its single commit twice while the repository map,
whose duplicate entry is overwritten, sums to one. -/
theorem generateContributionReport_dup_breaks_totals :
    (generateContributionReport [RepoRef.mk "o" "r", RepoRef.mk "o" "r"]
        { skipAIAnalysis := true } envDupRepo).summary.totalCommits = 2
    ∧ repoSumBy (generateContributionReport
        [RepoRef.mk "o" "r", RepoRef.mk "o" "r"]
        { skipAIAnalysis := true } envDupRepo).repositories
        (fun x => x.commits) = 1 := by
  decide

/-! #### Per-user repository entries (C4) -/

/-- Whether the per-user statistics of `name` contain an entry for `rk2`
(the JavaScript read `users[name].repositories[rk2] !== undefined`). -/
def userHasRepo (users : List (String × UserStats)) (name rk2 : String) : Bool :=
  ((users.lookup name).bind (fun u => u.repositories.lookup rk2)).isSome

/-- The contributor identities credited by the processors of one repository:
resolved commit authors, PR author logins, and the author logins of the
fetched issues that are not pull requests. -/
def hasActivity (env : FetchEnv) (name : String) (r : RepoRef) : Prop :=
  name ∈ (env.commitsFor r).map commitAuthor
  ∨ name ∈ (env.prsFor r).map PullRequest.userLogin
  ∨ name ∈ ((env.issuesFor r).filter (fun i => !i.isPullRequest)).map
      Issue.userLogin

instance (env : FetchEnv) (name : String) (r : RepoRef) :
    Decidable (hasActivity env name r) := by
  unfold hasActivity
  infer_instance

theorem lookup_map_value (l : List (String × UserStats))
    (f : UserStats → UserStats) (k : String) :
    (l.map (fun p => (p.1, f p.2))).lookup k = (l.lookup k).map f := by
  induction l with
  | nil => rfl
  | cons p rest ih =>
    obtain ⟨k2, v2⟩ := p
    cases hb : k == k2 <;> simp [List.lookup, hb, ih]

theorem initializeUserStats_none_lookup_ne (users : List (String × UserStats))
    (a name : String) (h : name ≠ a) :
    (initializeUserStats users a none).lookup name = users.lookup name := by
  unfold initializeUserStats
  cases users.lookup a with
  | some u => rfl
  | none => exact alSet_lookup_ne users a name _ h

theorem initializeUserStats_some_lookup_ne (users : List (String × UserStats))
    (a rk name : String) (h : name ≠ a) :
    (initializeUserStats users a (some rk)).lookup name = users.lookup name := by
  unfold initializeUserStats
  cases hl : users.lookup a with
  | some u =>
    exact alModify_lookup_ne users a name _ h
  | none =>
    rw [alModify_lookup_ne _ a name _ h]
    exact alSet_lookup_ne users a name _ h

/-- Looking up the author after `initializeUserStats(users, a, rk)` always
succeeds, and the found entry's per-repository keys are the author's previous
keys plus `rk`. -/
theorem initializeUserStats_some_lookup (users : List (String × UserStats))
    (a rk : String) :
    ∃ u2, (initializeUserStats users a (some rk)).lookup a = some u2
      ∧ (∀ rk2, (u2.repositories.lookup rk2).isSome
          = (userHasRepo users a rk2 || (rk2 == rk))) := by
  have hdef : initializeUserStats users a (some rk)
      = alModify (match users.lookup a with
          | some _ => users
          | none => alSet users a ({} : UserStats)) a
          (fun u => match u.repositories.lookup rk with
            | some _ => u
            | none => { u with
                repositories := alSet u.repositories rk ({} : UserRepoStats) }) := rfl
  rw [hdef]
  cases hl : users.lookup a with
  | some u =>
    simp only [hl]
    rw [alModify_lookup_eq, hl]
    refine ⟨_, rfl, ?_⟩
    intro rk2
    unfold userHasRepo
    simp only [hl, Option.some_bind]
    cases hr : u.repositories.lookup rk with
    | some v =>
      simp only [hr]
      by_cases h2 : rk2 = rk
      · subst h2
        simp [hr]
      · simp [(by simpa using h2 : (rk2 == rk) = false)]
    | none =>
      simp only [hr]
      show ((alSet u.repositories rk ({} : UserRepoStats)).lookup rk2).isSome = _
      by_cases h2 : rk2 = rk
      · subst h2
        simp [alSet_lookup_eq, hr]
      · rw [alSet_lookup_ne _ rk rk2 _ h2]
        simp [(by simpa using h2 : (rk2 == rk) = false)]
  | none =>
    simp only [hl]
    rw [alModify_lookup_eq, alSet_lookup_eq]
    refine ⟨_, rfl, ?_⟩
    intro rk2
    unfold userHasRepo
    simp only [hl, Option.none_bind, Option.isSome_none, Bool.false_or]
    show ((alSet ({} : UserStats).repositories rk ({} : UserRepoStats)).lookup
        rk2).isSome = _
    by_cases h2 : rk2 = rk
    · subst h2
      simp [alSet_lookup_eq]
    · rw [alSet_lookup_ne _ rk rk2 _ h2]
      simp [(by simpa using h2 : (rk2 == rk) = false), List.lookup]

/-- The combined effect of the two `initializeUserStats` calls and the
count-updating `alModify` that every author step performs on the users map:
other users are untouched, the author's entry exists afterwards, and the
author's per-repository keys gain exactly `rk`. -/
theorem authorStep_users (users : List (String × UserStats)) (a rk : String)
    (g : UserStats → UserStats)
    (hg : ∀ u rk2, ((g u).repositories.lookup rk2).isSome
        = (u.repositories.lookup rk2).isSome) :
    (∀ name, name ≠ a →
      (alModify (initializeUserStats (initializeUserStats users a none) a
          (some rk)) a g).lookup name = users.lookup name)
    ∧ ((alModify (initializeUserStats (initializeUserStats users a none) a
          (some rk)) a g).lookup a).isSome = true
    ∧ (∀ rk2, userHasRepo (alModify (initializeUserStats
          (initializeUserStats users a none) a (some rk)) a g) a rk2
        = (userHasRepo users a rk2 || (rk2 == rk))) := by
  obtain ⟨u2, hu2, hkeys⟩ :=
    initializeUserStats_some_lookup (initializeUserStats users a none) a rk
  have hbase : ∀ rk2, userHasRepo (initializeUserStats users a none) a rk2
      = userHasRepo users a rk2 := by
    intro rk2
    unfold userHasRepo initializeUserStats
    cases hl : users.lookup a with
    | some u => simp [hl]
    | none => simp [hl, alSet_lookup_eq, List.lookup]
  refine ⟨?_, ?_, ?_⟩
  · intro name h
    rw [alModify_lookup_ne _ a name _ h,
      initializeUserStats_some_lookup_ne _ a rk name h,
      initializeUserStats_none_lookup_ne _ a name h]
  · rw [alModify_lookup_eq, hu2]
    rfl
  · intro rk2
    unfold userHasRepo
    rw [alModify_lookup_eq, hu2]
    show ((g u2).repositories.lookup rk2).isSome = _
    rw [hg u2 rk2, hkeys rk2, hbase rk2]
    rfl

/-- A users-map transformation that neither creates nor removes the entry of
`a`, changes no per-repository key of `a`, and leaves every other user's
entry untouched. -/
def UsersPreserve (u1 u2 : List (String × UserStats)) (a : String) : Prop :=
  (∀ name, name ≠ a → u2.lookup name = u1.lookup name)
  ∧ ((u2.lookup a).isSome = (u1.lookup a).isSome)
  ∧ (∀ rk2, userHasRepo u2 a rk2 = userHasRepo u1 a rk2)

theorem usersPreserve_refl (u : List (String × UserStats)) (a : String) :
    UsersPreserve u u a :=
  ⟨fun _ _ => rfl, rfl, fun _ => rfl⟩

theorem usersPreserve_trans {u1 u2 u3 : List (String × UserStats)} {a : String}
    (h1 : UsersPreserve u1 u2 a) (h2 : UsersPreserve u2 u3 a) :
    UsersPreserve u1 u3 a :=
  ⟨fun name h => (h2.1 name h).trans (h1.1 name h),
    h2.2.1.trans h1.2.1,
    fun rk2 => (h2.2.2 rk2).trans (h1.2.2 rk2)⟩

theorem usersPreserve_alModify (u : List (String × UserStats)) (a : String)
    (g : UserStats → UserStats)
    (hg : ∀ v rk2, ((g v).repositories.lookup rk2).isSome
        = (v.repositories.lookup rk2).isSome) :
    UsersPreserve u (alModify u a g) a := by
  refine ⟨fun name h => alModify_lookup_ne u a name g h, ?_, ?_⟩
  · rw [alModify_lookup_eq]
    cases u.lookup a <;> rfl
  · intro rk2
    unfold userHasRepo
    rw [alModify_lookup_eq]
    cases hl : u.lookup a with
    | none => rfl
    | some v =>
      show ((g v).repositories.lookup rk2).isSome = _
      rw [hg v rk2]
      rfl

theorem processCommitLines_usersPreserve (rk a : String)
    (linesFor : Commit → Option (Nat × Nat)) (st : Contributions) (c : Commit) :
    UsersPreserve st.users (processCommitLines rk a linesFor st c).users a := by
  unfold processCommitLines
  cases h : linesFor c with
  | none => exact usersPreserve_refl st.users a
  | some p =>
    obtain ⟨add, del⟩ := p
    apply usersPreserve_alModify
    intro v rk2
    show ((alModify v.repositories rk _).lookup rk2).isSome = _
    by_cases h2 : rk2 = rk
    · subst h2
      rw [alModify_lookup_eq]
      cases v.repositories.lookup rk2 <;> rfl
    · rw [alModify_lookup_ne _ rk rk2 _ h2]

theorem foldl_usersPreserve {γ : Type u} (a : String)
    (φ : Contributions → γ → Contributions) (l : List γ)
    (h : ∀ st g, UsersPreserve st.users (φ st g).users a) (st : Contributions) :
    UsersPreserve st.users (l.foldl φ st).users a := by
  induction l generalizing st with
  | nil => exact usersPreserve_refl st.users a
  | cons g gs ih =>
    exact usersPreserve_trans (h st g) (ih (φ st g))

/-- The effect of a processing phase on the users map: users outside the
credited set `A` are untouched; every user in `A` afterwards has an entry
whose per-repository keys are the previous ones plus `rk`. -/
def UsersPhase (before after : List (String × UserStats)) (A : String → Prop)
    (rk : String) : Prop :=
  (∀ name, ¬ A name → after.lookup name = before.lookup name)
  ∧ (∀ name, A name → ((after.lookup name).isSome = true)
      ∧ ∀ rk2, userHasRepo after name rk2
          = (userHasRepo before name rk2 || (rk2 == rk)))

theorem usersPhase_of_empty (u1 u2 : List (String × UserStats))
    (A : String → Prop) (rk : String) (hA : ∀ n, ¬ A n) (heq : u2 = u1) :
    UsersPhase u1 u2 A rk := by
  subst heq
  exact ⟨fun _ _ => rfl, fun n hn => absurd hn (hA n)⟩

theorem usersPhase_congr (u1 u2 : List (String × UserStats))
    (A B : String → Prop) (rk : String) (hAB : ∀ n, A n ↔ B n)
    (h : UsersPhase u1 u2 A rk) : UsersPhase u1 u2 B rk :=
  ⟨fun n hn => h.1 n (fun ha => hn ((hAB n).mp ha)),
    fun n hn => h.2 n ((hAB n).mpr hn)⟩

theorem usersPhase_trans {u1 u2 u3 : List (String × UserStats)}
    {A1 A2 : String → Prop} {rk : String}
    (h1 : UsersPhase u1 u2 A1 rk) (h2 : UsersPhase u2 u3 A2 rk) :
    UsersPhase u1 u3 (fun n => A1 n ∨ A2 n) rk := by
  constructor
  · intro name hn
    have hn1 : ¬ A1 name := fun h => hn (Or.inl h)
    have hn2 : ¬ A2 name := fun h => hn (Or.inr h)
    exact (h2.1 name hn2).trans (h1.1 name hn1)
  · intro name hn
    by_cases ha2 : A2 name
    · obtain ⟨hsome, hkeys⟩ := h2.2 name ha2
      refine ⟨hsome, ?_⟩
      intro rk2
      rw [hkeys rk2]
      by_cases ha1 : A1 name
      · obtain ⟨_, hkeys1⟩ := h1.2 name ha1
        rw [hkeys1 rk2]
        cases userHasRepo u1 name rk2 <;> cases rk2 == rk <;> rfl
      · have := h1.1 name ha1
        unfold userHasRepo
        rw [this]
    · have ha1 : A1 name := hn.resolve_right ha2
      obtain ⟨hsome, hkeys⟩ := h1.2 name ha1
      have heq := h2.1 name ha2
      refine ⟨by rw [heq]; exact hsome, ?_⟩
      intro rk2
      have : userHasRepo u3 name rk2 = userHasRepo u2 name rk2 := by
        unfold userHasRepo
        rw [heq]
      rw [this, hkeys rk2]

/-- A phase followed by a tail that only touches one already-credited author
is still the same phase. -/
theorem usersPhase_preserve {u1 u2 u3 : List (String × UserStats)}
    {A : String → Prop} {rk : String}
    (h1 : UsersPhase u1 u2 A rk) (a : String) (ha : A a)
    (h2 : UsersPreserve u2 u3 a) :
    UsersPhase u1 u3 A rk := by
  constructor
  · intro name hn
    have hne : name ≠ a := fun h => hn (h ▸ ha)
    rw [h2.1 name hne, h1.1 name hn]
  · intro name hn
    by_cases hne : name = a
    · subst hne
      obtain ⟨hsome, hkeys⟩ := h1.2 name hn
      refine ⟨by rw [h2.2.1]; exact hsome, ?_⟩
      intro rk2
      rw [h2.2.2 rk2, hkeys rk2]
    · obtain ⟨hsome, hkeys⟩ := h1.2 name hn
      have heq := h2.1 name hne
      refine ⟨by rw [heq]; exact hsome, ?_⟩
      intro rk2
      have : userHasRepo u3 name rk2 = userHasRepo u2 name rk2 := by
        unfold userHasRepo
        rw [heq]
      rw [this, hkeys rk2]

theorem alModify_lookup_isSome (m : List (String × β)) (k k2 : String)
    (f : β → β) :
    ((alModify m k f).lookup k2).isSome = (m.lookup k2).isSome := by
  by_cases h : k2 = k
  · subst h
    rw [alModify_lookup_eq]
    cases m.lookup k2 <;> rfl
  · rw [alModify_lookup_ne _ k k2 _ h]

theorem processCommitAuthor_phase (rk : String)
    (linesFor : Commit → Option (Nat × Nat)) (st : Contributions)
    (g : String × List Commit) :
    UsersPhase st.users (processCommitAuthor rk linesFor st g).users
      (fun n => n = g.1) rk := by
  obtain ⟨h1, h2, h3⟩ := authorStep_users st.users g.1 rk
    (fun u =>
      { u with
        totalCommits := u.totalCommits + g.2.length
        repositories := alModify u.repositories rk (fun rs =>
          { rs with commits := rs.commits + g.2.length }) })
    (fun u rk2 => alModify_lookup_isSome _ rk rk2 _)
  set st1 : Contributions :=
    { st with
      users := alModify
        (initializeUserStats (initializeUserStats st.users g.1 none) g.1 (some rk)) g.1
        (fun u =>
          { u with
            totalCommits := u.totalCommits + g.2.length
            repositories := alModify u.repositories rk (fun rs =>
              { rs with commits := rs.commits + g.2.length }) })
      repositories := alModify st.repositories rk (fun r =>
        if r.contributors.contains g.1 then r
        else { r with contributors := r.contributors ++ [g.1] }) } with hst1
  have hphase : UsersPhase st.users st1.users (fun n => n = g.1) rk := by
    refine ⟨fun name hn => h1 name hn, ?_⟩
    intro name hn
    subst hn
    exact ⟨h2, h3⟩
  have hpres : UsersPreserve st1.users
      ((g.2.take 20).foldl (processCommitLines rk g.1 linesFor) st1).users g.1 :=
    foldl_usersPreserve g.1 (processCommitLines rk g.1 linesFor) (g.2.take 20)
      (fun st2 c => processCommitLines_usersPreserve rk g.1 linesFor st2 c) st1
  exact usersPhase_preserve hphase g.1 rfl hpres

theorem processPRAuthor_phase (rk : String) (st : Contributions)
    (g : String × List PullRequest) :
    UsersPhase st.users (processPRAuthor rk st g).users (fun n => n = g.1) rk := by
  obtain ⟨h1, h2, h3⟩ := authorStep_users st.users g.1 rk
    (fun u =>
      { u with
        totalPRs := u.totalPRs + g.2.length
        repositories := alModify u.repositories rk (fun rs =>
          { rs with pullRequests := rs.pullRequests + g.2.length }) })
    (fun u rk2 => alModify_lookup_isSome _ rk rk2 _)
  refine ⟨fun name hn => h1 name hn, ?_⟩
  intro name hn
  subst hn
  exact ⟨h2, h3⟩

theorem processIssueAuthor_phase (rk : String) (st : Contributions)
    (g : String × List Issue) :
    UsersPhase st.users (processIssueAuthor rk st g).users (fun n => n = g.1)
      rk := by
  obtain ⟨h1, h2, h3⟩ := authorStep_users st.users g.1 rk
    (fun u =>
      { u with
        totalIssues := u.totalIssues + g.2.length
        repositories := alModify u.repositories rk (fun rs =>
          { rs with issues := rs.issues + g.2.length }) })
    (fun u rk2 => alModify_lookup_isSome _ rk rk2 _)
  refine ⟨fun name hn => h1 name hn, ?_⟩
  intro name hn
  subst hn
  exact ⟨h2, h3⟩

theorem foldl_usersPhase {γ : Type u} (rk : String) (key : γ → String)
    (φ : Contributions → γ → Contributions)
    (h : ∀ st g, UsersPhase st.users (φ st g).users (fun n => n = key g) rk) :
    ∀ (gs : List γ) (st : Contributions),
      UsersPhase st.users (gs.foldl φ st).users
        (fun n => n ∈ gs.map key) rk := by
  intro gs
  induction gs with
  | nil =>
    intro st
    exact usersPhase_of_empty _ _ _ _ (by simp) rfl
  | cons g rest ih =>
    intro st
    have := usersPhase_trans (h st g) (ih (φ st g))
    apply usersPhase_congr _ _ _ _ _ _ this
    intro n
    simp [eq_comm]

theorem groupByKey_keys_mem {γ : Type u} (key : γ → String) :
    ∀ (l : List γ) (n : String),
      (n ∈ (groupByKey key l).map Prod.fst) ↔ n ∈ l.map key
  | [], n => by simp [groupByKey, groupByKeyGo]
  | x :: xs, n => by
    rw [groupByKey_cons]
    simp only [List.map_cons, List.mem_cons]
    rw [groupByKey_keys_mem key (xs.filter (fun y => key y != key x)) n]
    constructor
    · rintro (rfl | hmem)
      · exact Or.inl rfl
      · right
        rcases List.mem_map.mp hmem with ⟨y, hy, rfl⟩
        exact List.mem_map_of_mem key (List.mem_of_mem_filter hy)
    · rintro (rfl | hmem)
      · exact Or.inl rfl
      · rcases List.mem_map.mp hmem with ⟨y, hy, rfl⟩
        by_cases hk : key y = key x
        · exact Or.inl hk
        · right
          apply List.mem_map_of_mem key
          exact List.mem_filter.mpr ⟨hy, by simpa using hk⟩
termination_by l _ => l.length
decreasing_by
  exact Nat.lt_succ_of_le (List.length_filter_le _ _)

theorem processCommits_phase (rk : String)
    (linesFor : Commit → Option (Nat × Nat)) (cs : List Commit)
    (st : Contributions) :
    UsersPhase st.users (processCommits rk linesFor cs st).users
      (fun n => n ∈ cs.map commitAuthor) rk := by
  set st1 : Contributions :=
    { st with
      summary := { st.summary with
        totalCommits := st.summary.totalCommits + cs.length }
      repositories := alModify st.repositories rk (fun r =>
        { r with commits := cs.length }) } with hst1
  by_cases hempty : cs.isEmpty
  · have hcs : cs = [] := List.isEmpty_iff.mp hempty
    have hdef : processCommits rk linesFor cs st = st1 := by
      unfold processCommits
      rw [if_pos hempty]
    rw [hdef]
    apply usersPhase_of_empty
    · intro n hn
      rw [hcs] at hn
      simp at hn
    · rfl
  · have hdef : processCommits rk linesFor cs st
        = (groupByKey commitAuthor cs).foldl (processCommitAuthor rk linesFor)
            st1 := by
      unfold processCommits
      rw [if_neg hempty]
    rw [hdef]
    have hfold := foldl_usersPhase rk Prod.fst (processCommitAuthor rk linesFor)
      (fun st2 g => processCommitAuthor_phase rk linesFor st2 g)
      (groupByKey commitAuthor cs) st1
    apply usersPhase_congr _ _ _ _ _ (fun n => groupByKey_keys_mem commitAuthor cs n)
    exact hfold

theorem processPRs_phase (rk : String) (prs : List PullRequest)
    (st : Contributions) :
    UsersPhase st.users (processPRs rk prs st).users
      (fun n => n ∈ prs.map PullRequest.userLogin) rk := by
  set st1 : Contributions :=
    { st with
      summary := { st.summary with
        totalPRs := st.summary.totalPRs + prs.length
        prsMerged := st.summary.prsMerged
          + (prs.filter (fun p => p.mergedAt.isSome)).length }
      repositories := alModify st.repositories rk (fun r =>
        { r with
          pullRequests := prs.length
          prsMerged := (prs.filter (fun p => p.mergedAt.isSome)).length }) }
    with hst1
  by_cases hempty : prs.isEmpty
  · have hps : prs = [] := List.isEmpty_iff.mp hempty
    have hdef : processPRs rk prs st = st1 := by
      unfold processPRs
      rw [if_pos hempty]
    rw [hdef]
    apply usersPhase_of_empty
    · intro n hn
      rw [hps] at hn
      simp at hn
    · rfl
  · have hdef : processPRs rk prs st
        = (groupByKey PullRequest.userLogin prs).foldl (processPRAuthor rk)
            st1 := by
      unfold processPRs
      rw [if_neg hempty]
    rw [hdef]
    have hfold := foldl_usersPhase rk Prod.fst (processPRAuthor rk)
      (fun st2 g => processPRAuthor_phase rk st2 g)
      (groupByKey PullRequest.userLogin prs) st1
    apply usersPhase_congr _ _ _ _ _
      (fun n => groupByKey_keys_mem PullRequest.userLogin prs n)
    exact hfold

theorem processIssues_phase (rk : String) (issues : List Issue)
    (st : Contributions) :
    UsersPhase st.users (processIssues rk issues st).users
      (fun n => n ∈ (issues.filter (fun i => !i.isPullRequest)).map
          Issue.userLogin) rk := by
  by_cases hempty : issues.isEmpty
  · have his : issues = [] := List.isEmpty_iff.mp hempty
    have hdef : processIssues rk issues st = st := by
      unfold processIssues
      rw [if_pos hempty]
    rw [hdef]
    apply usersPhase_of_empty
    · intro n hn
      rw [his] at hn
      simp at hn
    · rfl
  · set actual := issues.filter (fun i => !i.isPullRequest) with hact
    set st1 : Contributions :=
      { st with
        summary := { st.summary with
          totalIssues := st.summary.totalIssues + actual.length
          issuesClosed := st.summary.issuesClosed
            + (actual.filter (fun i => i.state == "closed")).length }
        repositories := alModify st.repositories rk (fun r =>
          { r with
            issues := actual.length
            issuesClosed := (actual.filter (fun i => i.state == "closed")).length }) }
      with hst1
    have hdef : processIssues rk issues st
        = (groupByKey Issue.userLogin actual).foldl (processIssueAuthor rk)
            st1 := by
      unfold processIssues
      rw [if_neg hempty]
    rw [hdef]
    have hfold := foldl_usersPhase rk Prod.fst (processIssueAuthor rk)
      (fun st2 g => processIssueAuthor_phase rk st2 g)
      (groupByKey Issue.userLogin actual) st1
    apply usersPhase_congr _ _ _ _ _
      (fun n => groupByKey_keys_mem Issue.userLogin actual n)
    exact hfold

theorem processRepo_phase (env : FetchEnv) (st : Contributions) (r : RepoRef) :
    UsersPhase st.users (processRepo env st r).users
      (fun n => hasActivity env n r) (repoKey r) := by
  set rk := repoKey r with hrk
  set st0 : Contributions :=
    { st with repositories := alSet st.repositories rk {} } with hst0
  have hc := processCommits_phase rk env.linesFor (env.commitsFor r) st0
  have hp := processPRs_phase rk (env.prsFor r)
    (processCommits rk env.linesFor (env.commitsFor r) st0)
  have hi := processIssues_phase rk (env.issuesFor r)
    (processPRs rk (env.prsFor r)
      (processCommits rk env.linesFor (env.commitsFor r) st0))
  have hc0 : UsersPhase st.users
      (processCommits rk env.linesFor (env.commitsFor r) st0).users
      (fun n => n ∈ (env.commitsFor r).map commitAuthor) rk := hc
  have := usersPhase_trans (usersPhase_trans hc0 hp) hi
  apply usersPhase_congr _ _ _ _ _ _ this
  intro n
  unfold hasActivity
  rw [or_assoc]

theorem foldl_processRepo_users (env : FetchEnv) :
    ∀ (rs : List RepoRef) (st : Contributions),
      (∀ name, (((rs.foldl (processRepo env) st).users.lookup name).isSome = true)
          ↔ (((st.users.lookup name).isSome = true)
              ∨ ∃ r ∈ rs, hasActivity env name r))
      ∧ (∀ name rk2,
          (userHasRepo (rs.foldl (processRepo env) st).users name rk2 = true)
          ↔ ((userHasRepo st.users name rk2 = true)
              ∨ ∃ r ∈ rs, repoKey r = rk2 ∧ hasActivity env name r)) := by
  intro rs
  induction rs with
  | nil =>
    intro st
    constructor
    · intro name
      simp
    · intro name rk2
      simp
  | cons r rest ih =>
    intro st
    obtain ⟨ih1, ih2⟩ := ih (processRepo env st r)
    have hph := processRepo_phase env st r
    constructor
    · intro name
      have base : (((processRepo env st r).users.lookup name).isSome = true)
          ↔ (((st.users.lookup name).isSome = true) ∨ hasActivity env name r) := by
        by_cases ha : hasActivity env name r
        · exact iff_of_true (hph.2 name ha).1 (Or.inr ha)
        · rw [hph.1 name ha]
          exact ⟨fun h => Or.inl h, fun h => h.resolve_right ha⟩
      rw [List.foldl_cons, ih1 name, base]
      constructor
      · rintro ((h | h) | ⟨r2, hr2, hact⟩)
        · exact Or.inl h
        · exact Or.inr ⟨r, by simp, h⟩
        · exact Or.inr ⟨r2, by simp [hr2], hact⟩
      · rintro (h | ⟨r2, hr2, hact⟩)
        · exact Or.inl (Or.inl h)
        · rcases List.mem_cons.mp hr2 with rfl | hr2
          · exact Or.inl (Or.inr hact)
          · exact Or.inr ⟨r2, hr2, hact⟩
    · intro name rk2
      have base : (userHasRepo (processRepo env st r).users name rk2 = true)
          ↔ ((userHasRepo st.users name rk2 = true)
              ∨ (repoKey r = rk2 ∧ hasActivity env name r)) := by
        by_cases ha : hasActivity env name r
        · rw [(hph.2 name ha).2 rk2, Bool.or_eq_true, beq_iff_eq]
          constructor
          · rintro (h | h)
            · exact Or.inl h
            · exact Or.inr ⟨h.symm, ha⟩
          · rintro (h | ⟨h1, _⟩)
            · exact Or.inl h
            · exact Or.inr h1.symm
        · have heq : userHasRepo (processRepo env st r).users name rk2
              = userHasRepo st.users name rk2 := by
            unfold userHasRepo
            rw [hph.1 name ha]
          rw [heq]
          constructor
          · exact fun h => Or.inl h
          · rintro (h | ⟨_, hact⟩)
            · exact h
            · exact absurd hact ha
      rw [List.foldl_cons, ih2 name rk2, base]
      constructor
      · rintro ((h | h) | ⟨r2, hr2, hact⟩)
        · exact Or.inl h
        · exact Or.inr ⟨r, by simp, h⟩
        · exact Or.inr ⟨r2, by simp [hr2], hact⟩
      · rintro (h | ⟨r2, hr2, hact⟩)
        · exact Or.inl (Or.inl h)
        · rcases List.mem_cons.mp hr2 with rfl | hr2
          · exact Or.inl (Or.inr hact)
          · exact Or.inr ⟨r2, hr2, hact⟩

/-- A users-map transformation that preserves every entry's presence and
per-repository key set. -/
def UsersAllPreserve (u1 u2 : List (String × UserStats)) : Prop :=
  ∀ name, ((u2.lookup name).isSome = (u1.lookup name).isSome)
    ∧ ∀ rk2, userHasRepo u2 name rk2 = userHasRepo u1 name rk2

theorem usersAllPreserve_refl (u : List (String × UserStats)) :
    UsersAllPreserve u u := fun _ => ⟨rfl, fun _ => rfl⟩

theorem usersAllPreserve_trans {u1 u2 u3 : List (String × UserStats)}
    (h1 : UsersAllPreserve u1 u2) (h2 : UsersAllPreserve u2 u3) :
    UsersAllPreserve u1 u3 := by
  intro name
  exact ⟨(h2 name).1.trans (h1 name).1,
    fun rk2 => ((h2 name).2 rk2).trans ((h1 name).2 rk2)⟩

/-- The per-user update of the scoring pass. -/
def scoreUser (u : UserStats) : UserStats :=
  { u with
    activityScore := u.totalCommits * 3 + u.totalPRs * 5 + u.totalIssues * 1
    effortGrade := calculateEffortGrade u.linesModified
      (u.totalCommits * 3 + u.totalPRs * 5 + u.totalIssues * 1) }

theorem computeScores_users_eq (st : Contributions) :
    (computeScores st).users = st.users.map (fun p => (p.1, scoreUser p.2)) :=
  rfl

theorem computeScores_usersAllPreserve (st : Contributions) :
    UsersAllPreserve st.users (computeScores st).users := by
  intro name
  have hl : (computeScores st).users.lookup name
      = (st.users.lookup name).map scoreUser := by
    rw [computeScores_users_eq]
    exact lookup_map_value st.users scoreUser name
  constructor
  · rw [hl]
    cases st.users.lookup name <;> rfl
  · intro rk2
    unfold userHasRepo
    rw [hl]
    cases st.users.lookup name <;> rfl

theorem applyAIAnalysis_users_preserve
    (l : List (String × AIContributor)) :
    ∀ us : List (String × UserStats),
      UsersAllPreserve us (l.foldl (fun us p =>
        match us.lookup p.1, p.2.codeQualityScore with
        | some _, some q =>
          if q ≠ 0 then
            alModify us p.1 (fun u =>
              { u with codeQualityGrade := convertScoreToGrade q })
          else us
        | _, _ => us) us) := by
  have hstep : ∀ (us : List (String × UserStats)) (p : String × AIContributor),
      UsersAllPreserve us (match us.lookup p.1, p.2.codeQualityScore with
        | some _, some q =>
          if q ≠ 0 then
            alModify us p.1 (fun u =>
              { u with codeQualityGrade := convertScoreToGrade q })
          else us
        | _, _ => us) := by
    intro us p
    cases hl : us.lookup p.1 with
    | none =>
      cases hq : p.2.codeQualityScore <;> simp only [hl, hq] <;>
        exact usersAllPreserve_refl us
    | some u =>
      cases hq : p.2.codeQualityScore with
      | none =>
        simp only [hl, hq]
        exact usersAllPreserve_refl us
      | some q =>
        simp only [hl, hq]
        by_cases hz : q ≠ 0
        · rw [if_pos hz]
          intro name
          refine ⟨alModify_lookup_isSome us p.1 name _, ?_⟩
          intro rk2
          unfold userHasRepo
          by_cases hn : name = p.1
          · subst hn
            rw [alModify_lookup_eq, hl]
            rfl
          · rw [alModify_lookup_ne _ _ _ _ hn]
        · rw [if_neg hz]
          exact usersAllPreserve_refl us
  induction l with
  | nil => exact fun us => usersAllPreserve_refl us
  | cons p rest ih =>
    intro us
    exact usersAllPreserve_trans (hstep us p) (ih _)

theorem aiStage_usersAllPreserve (skipAI : Bool) (apiKey : Option String)
    (dc bc : Except String String) (ed eb : String → Option AIAnalysis)
    (st : Contributions) :
    UsersAllPreserve st.users (aiStage skipAI apiKey dc bc ed eb st).users := by
  unfold aiStage
  by_cases h : skipAI
  · rw [if_pos h]
    exact usersAllPreserve_refl st.users
  · rw [if_neg h]
    cases generateDetailedAIAnalysis st.users apiKey dc ed with
    | some ai =>
      show UsersAllPreserve st.users (applyAIAnalysis st ai).users
      exact applyAIAnalysis_users_preserve ai.contributors st.users
    | none =>
      cases generateAIAnalysis st.users apiKey bc eb with
      | some ai => exact usersAllPreserve_refl st.users
      | none => exact usersAllPreserve_refl st.users

/-- C4 (amended) — In every report produced by `generateContributionReport`,
a user is present in `report.users` exactly when they have at least one
counted commit, pull request, or (non-PR) issue in some processed repository,
and a present user's per-user `repositories` map has an entry precisely for
those processed repositories in which the user had such activity — each entry
created zero-filled on the user's first event there.  Entries for configured
repositories without activity by that user are absent (consumers read them
with a `|| 0` default), contrary to the claimed zero-fill of
every configured repository. -/
theorem generateContributionReport_userRepos (repos : List RepoRef)
    (cfg : PipelineConfig) (env : FetchEnv) (name rk2 : String) :
    ((((generateContributionReport repos cfg env).users.lookup name).isSome
        = true)
      ↔ ∃ r ∈ reposToProcess repos cfg, hasActivity env name r)
    ∧ ((userHasRepo (generateContributionReport repos cfg env).users name rk2
        = true)
      ↔ ∃ r ∈ reposToProcess repos cfg,
          repoKey r = rk2 ∧ hasActivity env name r) := by
  obtain ⟨hf1, hf2⟩ := foldl_processRepo_users env (reposToProcess repos cfg)
    { summary := { repositories := repos.map repoKey } }
  have hcs := computeScores_usersAllPreserve
    ((reposToProcess repos cfg).foldl (processRepo env)
      { summary := { repositories := repos.map repoKey } })
  have hai := aiStage_usersAllPreserve cfg.skipAIAnalysis env.apiKey
    env.detailedCall env.basicCall env.extractDetailed env.extractBasic
    (collectAndScore repos cfg env)
  have hreport : generateContributionReport repos cfg env
      = aiStage cfg.skipAIAnalysis env.apiKey env.detailedCall env.basicCall
          env.extractDetailed env.extractBasic
          (collectAndScore repos cfg env) := rfl
  have hcoll := collectAndScore_eq_foldl repos cfg env
  constructor
  · rw [hreport, (hai name).1, hcoll, (hcs name).1]
    rw [hf1 name]
    simp [List.lookup]
  · rw [hreport, show userHasRepo (aiStage cfg.skipAIAnalysis env.apiKey
        env.detailedCall env.basicCall env.extractDetailed env.extractBasic
        (collectAndScore repos cfg env)).users name rk2
      = userHasRepo (collectAndScore repos cfg env).users name rk2
      from (hai name).2 rk2, hcoll,
      show userHasRepo (computeScores ((reposToProcess repos cfg).foldl
          (processRepo env)
          { summary := { repositories := repos.map repoKey } })).users name rk2
        = userHasRepo ((reposToProcess repos cfg).foldl (processRepo env)
          { summary := { repositories := repos.map repoKey } }).users name rk2
      from (hcs name).2 rk2]
    rw [hf2 name rk2]
    simp [userHasRepo, List.lookup]

/-- Counterexample to C4 as stated: with two configured repositories and
alice active only in the first, alice is present in the report but her
per-user repositories map has no entry (not even a zero-filled one) for the
second configured repository. -/
theorem generateContributionReport_no_zero_fill :
    (((generateContributionReport [RepoRef.mk "o" "r1", RepoRef.mk "o" "r2"]
        { skipAIAnalysis := true } envTwoRepos).users.lookup "alice").isSome
      = true)
    ∧ "o/r2" ∈ ([RepoRef.mk "o" "r1", RepoRef.mk "o" "r2"].map repoKey)
    ∧ userHasRepo (generateContributionReport
        [RepoRef.mk "o" "r1", RepoRef.mk "o" "r2"]
        { skipAIAnalysis := true } envTwoRepos).users "alice" "o/r2"
      = false := by
  decide

/-! #### The AI stage and its degradation (C7, C10) -/

theorem length_insertByScore (x : String × UserStats)
    (l : List (String × UserStats)) :
    (insertByScore x l).length = l.length + 1 := by
  induction l with
  | nil => rfl
  | cons y ys ih =>
    unfold insertByScore
    split
    · simp
    · simp [ih]

theorem length_sortByScoreDesc (users : List (String × UserStats)) :
    (sortByScoreDesc users).length = users.length := by
  have hgen : ∀ (l acc : List (String × UserStats)),
      (l.foldl (fun acc x => insertByScore x acc) acc).length
        = acc.length + l.length := by
    intro l
    induction l with
    | nil => simp
    | cons x xs ih =>
      intro acc
      rw [List.foldl_cons, ih (insertByScore x acc), length_insertByScore]
      simp only [List.length_cons]
      omega
  unfold sortByScoreDesc
  rw [hgen users []]
  simp

theorem contributors_isEmpty_eq (users : List (String × UserStats)) :
    ((sortByScoreDesc users).take 5).isEmpty = users.isEmpty := by
  have h1 : ∀ (l : List (String × UserStats)), l.isEmpty = (l.length == 0) := by
    intro l
    cases l <;> rfl
  rw [h1, h1, List.length_take, length_sortByScoreDesc]
  cases hn : users.length with
  | zero => rfl
  | succ n => simp [Nat.succ_min_succ]

theorem processRepo_aiAnalysis (env : FetchEnv) (st : Contributions)
    (r : RepoRef) :
    (processRepo env st r).aiAnalysis = st.aiAnalysis := by
  have hc : ∀ st2 : Contributions,
      (processCommits (repoKey r) env.linesFor (env.commitsFor r) st2).aiAnalysis
        = st2.aiAnalysis := by
    intro st2
    by_cases hempty : (env.commitsFor r).isEmpty
    · unfold processCommits
      rw [if_pos hempty]
    · unfold processCommits
      rw [if_neg hempty]
      exact ((repoFrame_foldl (repoKey r)
        (processCommitAuthor (repoKey r) env.linesFor)
        (groupByKey commitAuthor (env.commitsFor r))
        (fun g => repoFrame_processCommitAuthor (repoKey r) env.linesFor g))
        _).2.2.1
  have hp : ∀ st2 : Contributions,
      (processPRs (repoKey r) (env.prsFor r) st2).aiAnalysis
        = st2.aiAnalysis := by
    intro st2
    by_cases hempty : (env.prsFor r).isEmpty
    · unfold processPRs
      rw [if_pos hempty]
    · unfold processPRs
      rw [if_neg hempty]
      exact ((repoFrame_foldl (repoKey r) (processPRAuthor (repoKey r))
        (groupByKey PullRequest.userLogin (env.prsFor r))
        (fun g => repoFrame_processPRAuthor (repoKey r) g)) _).2.2.1
  have hi : (processIssues (repoKey r) (env.issuesFor r)
      (processPRs (repoKey r) (env.prsFor r)
        (processCommits (repoKey r) env.linesFor (env.commitsFor r)
          { st with
            repositories := alSet st.repositories (repoKey r) {} }))).aiAnalysis
      = (processPRs (repoKey r) (env.prsFor r)
        (processCommits (repoKey r) env.linesFor (env.commitsFor r)
          { st with
            repositories := alSet st.repositories (repoKey r) {} })).aiAnalysis :=
    (processIssues_frame (repoKey r) (env.issuesFor r) _).2.2.1
  show (processIssues (repoKey r) (env.issuesFor r) _).aiAnalysis = _
  rw [hi, hp, hc]

theorem collectAndScore_aiAnalysis (repos : List RepoRef)
    (cfg : PipelineConfig) (env : FetchEnv) :
    (collectAndScore repos cfg env).aiAnalysis = none := by
  rw [collectAndScore_eq_foldl]
  have hfold : ∀ (rs : List RepoRef) (st : Contributions),
      (rs.foldl (processRepo env) st).aiAnalysis = st.aiAnalysis := by
    intro rs
    induction rs with
    | nil => exact fun _ => rfl
    | cons r rest ih =>
      intro st
      rw [List.foldl_cons, ih (processRepo env st r),
        processRepo_aiAnalysis env st r]
  show ((reposToProcess repos cfg).foldl (processRepo env) _).aiAnalysis = none
  rw [hfold]

/-- C7 — If the AI-analysis stage fails (both the detailed and the fallback
basic call yield `null`), the report produced by
`generateContributionReport` has no `aiAnalysis` field and is identical —
every count, line delta, activity score and grade — to the report of a run
with the stage skipped; the failure never escapes the pipeline (the analysis
functions are total and return `none`).  Each claimed failure cause does
yield `null` from the detailed analysis when there are contributors: a
missing or empty API key, a failed network call, and a response from which no
JSON object can be extracted. -/
theorem aiAnalysis_failure_degrades (repos : List RepoRef)
    (cfg : PipelineConfig) (env : FetchEnv)
    (hdet : generateDetailedAIAnalysis (collectAndScore repos cfg env).users
        env.apiKey env.detailedCall env.extractDetailed = none)
    (hbasic : generateAIAnalysis (collectAndScore repos cfg env).users
        env.apiKey env.basicCall env.extractBasic = none) :
    generateContributionReport repos { cfg with skipAIAnalysis := false } env
      = generateContributionReport repos { cfg with skipAIAnalysis := true } env
    ∧ (generateContributionReport repos
        { cfg with skipAIAnalysis := false } env).aiAnalysis = none
    ∧ (∀ (users : List (String × UserStats)) (k : Option String)
        (dc : Except String String) (ed : String → Option AIAnalysis),
        users ≠ [] → truthyStr k = false →
        generateDetailedAIAnalysis users k dc ed = none)
    ∧ (∀ (users : List (String × UserStats)) (k : Option String) (e : String)
        (ed : String → Option AIAnalysis),
        users ≠ [] →
        generateDetailedAIAnalysis users k (Except.error e) ed = none)
    ∧ (∀ (users : List (String × UserStats)) (k : Option String)
        (content : String) (ed : String → Option AIAnalysis),
        users ≠ [] → ed content = none →
        generateDetailedAIAnalysis users k (Except.ok content) ed = none) := by
  have hne : ∀ (users : List (String × UserStats)), users ≠ [] →
      (((sortByScoreDesc users).take 5).isEmpty = true) = False := by
    intro users h
    rw [contributors_isEmpty_eq]
    simp [h]
  have hstage : aiStage false env.apiKey env.detailedCall env.basicCall
      env.extractDetailed env.extractBasic (collectAndScore repos cfg env)
      = collectAndScore repos cfg env := by
    unfold aiStage
    rw [if_neg (by simp)]
    simp only [hdet, hbasic]
  refine ⟨?_, ?_, ?_, ?_, ?_⟩
  · show aiStage false env.apiKey env.detailedCall env.basicCall
        env.extractDetailed env.extractBasic (collectAndScore repos cfg env)
      = aiStage true env.apiKey env.detailedCall env.basicCall
        env.extractDetailed env.extractBasic (collectAndScore repos cfg env)
    rw [hstage]
    rfl
  · show (aiStage false env.apiKey env.detailedCall env.basicCall
        env.extractDetailed env.extractBasic
        (collectAndScore repos cfg env)).aiAnalysis = none
    rw [hstage]
    exact collectAndScore_aiAnalysis repos cfg env
  · intro users k dc ed h hk
    unfold generateDetailedAIAnalysis
    have hc1 : ¬ (((sortByScoreDesc users).take 5).isEmpty = true) := by
      rw [hne users h]
      exact id
    have hc2 : (!(truthyStr k)) = true := by
      rw [hk]
      rfl
    rw [if_neg hc1, if_pos hc2]
  · intro users k e ed h
    unfold generateDetailedAIAnalysis
    have hc1 : ¬ (((sortByScoreDesc users).take 5).isEmpty = true) := by
      rw [hne users h]
      exact id
    rw [if_neg hc1]
    cases hk : truthyStr k with
    | false => rw [if_pos (show (!false) = true from rfl)]
    | true => rw [if_neg (show ¬ ((!true) = true) by simp)]
  · intro users k content ed h hext
    unfold generateDetailedAIAnalysis
    have hc1 : ¬ (((sortByScoreDesc users).take 5).isEmpty = true) := by
      rw [hne users h]
      exact id
    rw [if_neg hc1]
    cases hk : truthyStr k with
    | false => rw [if_pos (show (!false) = true from rfl)]
    | true =>
      rw [if_neg (show ¬ ((!true) = true) by simp)]
      simp only [hext]

/-- Witness for C7 at a concrete run: one repository with one commit (so the
users map is non-empty), no API key, failing network calls, and an extractor
that finds no JSON. -/
theorem aiAnalysis_failure_degrades_witness :
    (generateDetailedAIAnalysis
        (collectAndScore [RepoRef.mk "o" "r1"] {} envTwoRepos).users
        none (Except.error "network") (fun _ => none) = none
      ∧ generateAIAnalysis
        (collectAndScore [RepoRef.mk "o" "r1"] {} envTwoRepos).users
        none (Except.error "network") (fun _ => none) = none)
    ∧ generateContributionReport [RepoRef.mk "o" "r1"]
        { skipAIAnalysis := false } envTwoRepos
      = generateContributionReport [RepoRef.mk "o" "r1"]
        { skipAIAnalysis := true } envTwoRepos
    ∧ (generateContributionReport [RepoRef.mk "o" "r1"]
        { skipAIAnalysis := false } envTwoRepos).aiAnalysis = none :=
  ⟨⟨by decide, by decide⟩,
    (aiAnalysis_failure_degrades [RepoRef.mk "o" "r1"] {} envTwoRepos
      (by decide) (by decide)).1,
    (aiAnalysis_failure_degrades [RepoRef.mk "o" "r1"] {} envTwoRepos
      (by decide) (by decide)).2.1⟩

/-- C10 — If the users map of the contribution data is empty,
`generateDetailedAIAnalysis` returns the fixed "No significant contributions
found" result with an empty contributors map, for every API-key value and
call outcome — the check precedes the API-key read, so no external call is
needed — and the assembled report then carries that analysis in its
`aiAnalysis` field. -/
theorem generateDetailedAIAnalysis_emptyUsers
    (users : List (String × UserStats)) (h : users = [])
    (apiKey : Option String) (call bcall : Except String String)
    (ed eb : String → Option AIAnalysis) (st : Contributions)
    (hst : st.users = []) :
    generateDetailedAIAnalysis users apiKey call ed = some emptyAIAnalysis
    ∧ (aiStage false apiKey call bcall ed eb st).aiAnalysis
        = some emptyAIAnalysis := by
  subst h
  constructor
  · rfl
  · unfold aiStage
    rw [if_neg (by simp)]
    have hd : generateDetailedAIAnalysis st.users apiKey call ed
        = some emptyAIAnalysis := by
      rw [hst]
      rfl
    simp only [hd]
    rfl

/-- Witness for C10: an empty run (no commits, PRs or issues anywhere)
produces a report whose `aiAnalysis` is the canned empty analysis, with no
API key configured and a failing network. -/
def envNoActivity : FetchEnv :=
  { commitsFor := fun _ => []
    prsFor := fun _ => []
    issuesFor := fun _ => []
    linesFor := fun _ => none }

theorem generateDetailedAIAnalysis_emptyUsers_witness :
    (([] : List (String × UserStats)) = []
      ∧ (collectAndScore [RepoRef.mk "o" "r"] {} envNoActivity).users = [])
    ∧ generateDetailedAIAnalysis [] none (Except.error "network")
        (fun _ => none) = some emptyAIAnalysis
    ∧ (generateContributionReport [RepoRef.mk "o" "r"] {}
        envNoActivity).aiAnalysis = some emptyAIAnalysis :=
  ⟨⟨rfl, by decide⟩,
    (generateDetailedAIAnalysis_emptyUsers [] rfl none (Except.error "network")
      (Except.error "network") (fun _ => none) (fun _ => none)
      (collectAndScore [RepoRef.mk "o" "r"] {} envNoActivity) (by decide)).1,
    (generateDetailedAIAnalysis_emptyUsers [] rfl none (Except.error "network")
      (Except.error "network") (fun _ => none) (fun _ => none)
      (collectAndScore [RepoRef.mk "o" "r"] {} envNoActivity) (by decide)).2⟩

/-! ### Run-scoping of the skip flags (`generateAndPostReport`,
Review.js:1844-1898)

The function saves the two process-wide flags in `const` locals at the top of
its `try` block (Review.js:1847-1848), sets both to `'true'`, and attempts to
restore them in the `finally` block (Review.js:1884-1897).  In ECMAScript a
`const` is scoped to its enclosing block, so the `finally` block — a sibling
block — resolves `originalSkipDetailedContent` against its own scope chain: the
finally block binds nothing, the function scope binds only the parameters
`client`, `channelId`, `respond`, and no enclosing scope of the module binds
either name (the two identifiers occur nowhere else in the source).  The
embedding makes that name resolution explicit. -/

/-- The slice of `process.env` the function touches. -/
structure ProcEnv where
  skipDetailedContent : Option String := none
  skipAIAnalysis : Option String := none
deriving Repr, DecidableEq

/-- Completion of a JavaScript async function: fulfilled or rejected. -/
inductive JsResult (α : Type) where
  | ok (a : α)
  | thrown (msg : String)
deriving Repr, DecidableEq

/-- The scope chain visible from the `finally` block of
`generateAndPostReport`, innermost first: the finally block's own (empty)
block scope, then the function scope with its three parameters.  The `const`
declarations of Review.js:1847-1848 live in the `try` block's scope, which is
not on this chain; no module-level binding of either name exists. -/
def generateAndPostReportFinallyChain : List (List String) :=
  [[], ["client", "channelId", "respond"]]

/-- ECMAScript identifier resolution along a scope chain. -/
def resolvesName (chain : List (List String)) (x : String) : Bool :=
  chain.any (fun scope => scope.contains x)

/-- Embedding of `generateAndPostReport` (Review.js:1844-1898) restricted to
its effect on the two flags and its completion.  The `try` block saves the
old values and sets both flags to `'true'`; the body (report generation, save,
post) may fail, but the `catch` block (Review.js:1873-1883) swallows any such
error, so `bodyFails` cannot influence the completion.  The `finally` block
then evaluates `if (originalSkipDetailedContent)`: when the identifier
resolves, the source's restore logic runs (restore a truthy saved value,
`delete` otherwise); when it does not resolve — the actual situation — the
evaluation throws a `ReferenceError`, no restore happens, and the async
function rejects with that error. -/
def generateAndPostReport (env : ProcEnv) (bodyFails : Bool) :
    JsResult Unit × ProcEnv :=
  let envDuringRun : ProcEnv :=
    { skipDetailedContent := some "true", skipAIAnalysis := some "true" }
  if resolvesName generateAndPostReportFinallyChain
      "originalSkipDetailedContent" then
    let restored : ProcEnv :=
      { skipDetailedContent :=
          match env.skipDetailedContent with
          | some s => if s ≠ "" then some s else none
          | none => none
        skipAIAnalysis :=
          match env.skipAIAnalysis with
          | some s => if s ≠ "" then some s else none
          | none => none }
    (JsResult.ok (), restored)
  else
    (JsResult.thrown
      "ReferenceError: originalSkipDetailedContent is not defined",
      envDuringRun)

/-- C8 — code bug: `generateAndPostReport` never restores the two flags and
always rejects.  The `finally` block reads the try-scoped `const` locals,
which do not resolve from the finally block's scope chain, so evaluating the
restore condition throws a `ReferenceError` before any assignment: for every
prior value of the two flags (set or unset) and whether or not the body
failed, both flags are left at `'true'` and the function rejects — the restore
code the source clearly intends (its comment reads `Restore original
environment variables`) is unreachable. -/
theorem generateAndPostReport_scope_bug :
    ((generateAndPostReport {} false).1
      = JsResult.thrown
          "ReferenceError: originalSkipDetailedContent is not defined"
    ∧ (generateAndPostReport {} false).2
      = { skipDetailedContent := some "true", skipAIAnalysis := some "true" })
    ∧ ∀ (env : ProcEnv) (bodyFails : Bool),
        (generateAndPostReport env bodyFails).1
          = JsResult.thrown
              "ReferenceError: originalSkipDetailedContent is not defined"
        ∧ (generateAndPostReport env bodyFails).2.skipDetailedContent
            = some "true"
        ∧ (generateAndPostReport env bodyFails).2.skipAIAnalysis
            = some "true" := by
  refine ⟨⟨rfl, rfl⟩, ?_⟩
  intro env bodyFails
  have hres : resolvesName generateAndPostReportFinallyChain
      "originalSkipDetailedContent" = false := rfl
  unfold generateAndPostReport
  rw [hres]
  exact ⟨rfl, rfl, rfl⟩

/-! ### Repository configuration (`parseRepositories`, Review.js:1728-1771) -/

/-- An ECMAScript value as produced by `JSON.parse` plus `undefined` (the
result of reading an absent property). -/
inductive JsValue where
  | null
  | undefVal
  | bool (b : Bool)
  | num (q : ℚ)
  | str (s : String)
  | arr (elems : List JsValue)
  | obj (fields : List (String × JsValue))

/-- JavaScript truthiness (`NaN` has no counterpart in `ℚ` and never arises
from `JSON.parse`). -/
def truthy : JsValue → Bool
  | .null => false
  | .undefVal => false
  | .bool b => b
  | .num q => q != 0
  | .str s => s != ""
  | .arr _ => true
  | .obj _ => true

/-- Property access `v.k`: throws a `TypeError` on `null`/`undefined`, reads
the field of an object (absent fields give `undefined`), and gives
`undefined` on boxed primitives and arrays (no such prototype properties). -/
def getField : JsValue → String → Except String JsValue
  | .null, _ => .error "TypeError"
  | .undefVal, _ => .error "TypeError"
  | .obj fs, k => .ok ((fs.lookup k).getD .undefVal)
  | _, _ => .ok .undefVal

/-- The validation callback `repo => repo.owner && repo.repo` with
JavaScript's short-circuit evaluation; property access may throw. -/
def validRepoEntry (v : JsValue) : Except String Bool :=
  match getField v "owner" with
  | .error e => .error e
  | .ok o =>
    if truthy o then
      match getField v "repo" with
      | .error e => .error e
      | .ok r => .ok (truthy r)
    else .ok false

/-- `repos.every(repo => repo.owner && repo.repo)`: short-circuits on the
first falsy result; a thrown `TypeError` propagates. -/
def everyValid : List JsValue → Except String Bool
  | [] => .ok true
  | v :: vs =>
    match validRepoEntry v with
    | .error e => .error e
    | .ok b => if b then everyValid vs else .ok false

/-- The four built-in default repositories (Review.js:1755-1760). -/
def defaultRepos : List JsValue :=
  [ .obj [("owner", .str "arch-network"), ("repo", .str "arch-network")],
    .obj [("owner", .str "arch-network"), ("repo", .str "book")],
    .obj [("owner", .str "arch-network"), ("repo", .str "arch-infrastructure")],
    .obj [("owner", .str "arch-network"), ("repo", .str "arch-k8s")] ]

/-- The array validation of Review.js:1740-1753: a parsed array is returned
as-is when `every` accepts all entries; failed validation — and a
`TypeError` thrown inside `every`, which the outer catch swallows — falls
back to the defaults. -/
def validatedOrDefault (elems : List JsValue) : List JsValue :=
  match everyValid elems with
  | .ok true => elems
  | _ => defaultRepos

/-- The branch of `parseRepositories` on the result of `JSON.parse`: a parse
failure is caught by the inner catch (Review.js:1762-1765) and falls back to
the defaults; a non-array value fails `Array.isArray` (so `every` is never
called and cannot throw) and also falls back. -/
def parseRepositoriesParsed : Except String JsValue → List JsValue
  | .error _ => defaultRepos
  | .ok (.arr elems) => validatedOrDefault elems
  | .ok _ => defaultRepos

/-- Embedding of `parseRepositories()` (Review.js:1728-1771).  `reposEnv` is
the value of `process.env.GITHUB_REPOS` (absent or a string; the empty string
is falsy at `if (reposEnv)`), and `parse` is `JSON.parse`, supplied as a
function since it is a host built-in. -/
def parseRepositories (reposEnv : Option String)
    (parse : String → Except String JsValue) : List JsValue :=
  match reposEnv with
  | none => defaultRepos
  | some s =>
    if s = "" then defaultRepos else parseRepositoriesParsed (parse s)

theorem validRepoEntry_ok_true (v : JsValue)
    (h : validRepoEntry v = .ok true) :
    ∃ o r, getField v "owner" = .ok o ∧ truthy o = true
      ∧ getField v "repo" = .ok r ∧ truthy r = true := by
  unfold validRepoEntry at h
  split at h
  · cases h
  · rename_i o ho
    split at h
    · rename_i hto
      split at h
      · cases h
      · rename_i r hr
        injection h with h2
        exact ⟨o, r, ho, hto, hr, h2⟩
    · cases h

theorem everyValid_ok_true : ∀ l : List JsValue, everyValid l = .ok true →
    ∀ v ∈ l, validRepoEntry v = .ok true := by
  intro l
  induction l with
  | nil => intro _ v hv; cases hv
  | cons x xs ih =>
    intro h v hv
    unfold everyValid at h
    split at h
    · cases h
    · rename_i b hb
      cases b with
      | false => simp at h
      | true =>
        rw [if_pos rfl] at h
        rcases List.mem_cons.mp hv with rfl | hv2
        · exact hb
        · exact ih h v hv2

theorem defaultRepos_valid : ∀ v ∈ defaultRepos,
    ∃ o r, getField v "owner" = .ok o ∧ truthy o = true
      ∧ getField v "repo" = .ok r ∧ truthy r = true := by
  intro v hv
  unfold defaultRepos at hv
  simp only [List.mem_cons, List.not_mem_nil, or_false] at hv
  rcases hv with rfl | rfl | rfl | rfl
  · exact ⟨.str "arch-network", .str "arch-network", rfl, rfl, rfl, rfl⟩
  · exact ⟨.str "arch-network", .str "book", rfl, rfl, rfl, rfl⟩
  · exact ⟨.str "arch-network", .str "arch-infrastructure", rfl, rfl, rfl, rfl⟩
  · exact ⟨.str "arch-network", .str "arch-k8s", rfl, rfl, rfl, rfl⟩

theorem parseRepositoriesParsed_valid (r : Except String JsValue) :
    ∀ v ∈ parseRepositoriesParsed r,
      ∃ o r2, getField v "owner" = .ok o ∧ truthy o = true
        ∧ getField v "repo" = .ok r2 ∧ truthy r2 = true := by
  intro v hv
  cases r with
  | error e => exact defaultRepos_valid v hv
  | ok w =>
    cases w with
    | arr elems =>
      have hv2 : v ∈ validatedOrDefault elems := hv
      unfold validatedOrDefault at hv2
      cases hev : everyValid elems with
      | error e =>
        rw [hev] at hv2
        exact defaultRepos_valid v hv2
      | ok b =>
        cases b with
        | false =>
          rw [hev] at hv2
          exact defaultRepos_valid v hv2
        | true =>
          rw [hev] at hv2
          exact validRepoEntry_ok_true v (everyValid_ok_true elems hev v hv2)
    | null => exact defaultRepos_valid v hv
    | undefVal => exact defaultRepos_valid v hv
    | bool b => exact defaultRepos_valid v hv
    | num q => exact defaultRepos_valid v hv
    | str s3 => exact defaultRepos_valid v hv
    | obj fs => exact defaultRepos_valid v hv

/-- C9 (amended) — `parseRepositories` is total and never throws: every
exception path (malformed JSON, a `TypeError` from a `null` entry during
validation) is caught and falls back to the built-in default list.  For every
value of `GITHUB_REPOS` it returns a list in which every element has truthy
`owner` and `repo` fields, and on absent, empty, unparseable, non-array or
invalidly-shaped input it returns exactly the four built-in defaults.
However, the result is not always non-empty: a parsed empty array passes the
`Array.isArray && every` validation vacuously and is returned as-is. -/
theorem parseRepositories_spec (reposEnv : Option String)
    (parse : String → Except String JsValue) (s : String)
    (elems : List JsValue)
    (hs : s ≠ "") (hparse : parse s = .ok (.arr elems))
    (hvalid : everyValid elems = .ok true) :
    (∀ v ∈ parseRepositories reposEnv parse,
      ∃ o r, getField v "owner" = .ok o ∧ truthy o = true
        ∧ getField v "repo" = .ok r ∧ truthy r = true)
    ∧ parseRepositories none parse = defaultRepos
    ∧ parseRepositories (some "") parse = defaultRepos
    ∧ (∀ s2 e, parse s2 = .error e → s2 ≠ "" →
        parseRepositories (some s2) parse = defaultRepos)
    ∧ (∀ s2 q, parse s2 = .ok (.num q) → s2 ≠ "" →
        parseRepositories (some s2) parse = defaultRepos)
    ∧ (∀ s2 elems2 e, parse s2 = .ok (.arr elems2) → s2 ≠ "" →
        everyValid elems2 = .error e →
        parseRepositories (some s2) parse = defaultRepos)
    ∧ (∀ s2 elems2, parse s2 = .ok (.arr elems2) → s2 ≠ "" →
        everyValid elems2 = .ok false →
        parseRepositories (some s2) parse = defaultRepos)
    ∧ parseRepositories (some s) parse = elems
    ∧ defaultRepos.length = 4 := by
  refine ⟨?_, rfl, rfl, ?_, ?_, ?_, ?_, ?_, rfl⟩
  · intro v hv
    cases reposEnv with
    | none => exact defaultRepos_valid v hv
    | some s2 =>
      by_cases hs2 : s2 = ""
      · subst hs2
        exact defaultRepos_valid v hv
      · have he : parseRepositories (some s2) parse
            = if s2 = "" then defaultRepos
              else parseRepositoriesParsed (parse s2) := rfl
        rw [he, if_neg hs2] at hv
        exact parseRepositoriesParsed_valid (parse s2) v hv
  · intro s2 e hp hs2
    have he : parseRepositories (some s2) parse
        = if s2 = "" then defaultRepos
          else parseRepositoriesParsed (parse s2) := rfl
    rw [he, if_neg hs2, hp]
    rfl
  · intro s2 q hp hs2
    have he : parseRepositories (some s2) parse
        = if s2 = "" then defaultRepos
          else parseRepositoriesParsed (parse s2) := rfl
    rw [he, if_neg hs2, hp]
    rfl
  · intro s2 elems2 e hp hs2 hev
    have he : parseRepositories (some s2) parse
        = if s2 = "" then defaultRepos
          else parseRepositoriesParsed (parse s2) := rfl
    rw [he, if_neg hs2, hp]
    show validatedOrDefault elems2 = defaultRepos
    unfold validatedOrDefault
    rw [hev]
  · intro s2 elems2 hp hs2 hev
    have he : parseRepositories (some s2) parse
        = if s2 = "" then defaultRepos
          else parseRepositoriesParsed (parse s2) := rfl
    rw [he, if_neg hs2, hp]
    show validatedOrDefault elems2 = defaultRepos
    unfold validatedOrDefault
    rw [hev]
  · have he : parseRepositories (some s) parse
        = if s = "" then defaultRepos
          else parseRepositoriesParsed (parse s) := rfl
    rw [he, if_neg hs, hparse]
    show validatedOrDefault elems = elems
    unfold validatedOrDefault
    rw [hvalid]

/-- A concrete parser for the C9 witness: maps `"ok"` to a singleton valid
array and everything else to a parse error. -/
def parseOkSingleton : String → Except String JsValue := fun s2 =>
  if s2 = "ok"
  then .ok (.arr [.obj [("owner", .str "me"), ("repo", .str "proj")]])
  else .error "unexpected"

/-- Witness for C9 (amended) at the concrete parser `parseOkSingleton`. -/
theorem parseRepositories_spec_witness :
    ("ok" ≠ ""
      ∧ parseOkSingleton "ok" = Except.ok (JsValue.arr
          [JsValue.obj [("owner", JsValue.str "me"),
            ("repo", JsValue.str "proj")]])
      ∧ everyValid [JsValue.obj [("owner", JsValue.str "me"),
          ("repo", JsValue.str "proj")]] = Except.ok true)
    ∧ parseRepositories none parseOkSingleton = defaultRepos
    ∧ parseRepositories (some "ok") parseOkSingleton
      = [JsValue.obj [("owner", JsValue.str "me"),
          ("repo", JsValue.str "proj")]] :=
  ⟨⟨by decide, rfl, rfl⟩,
    (parseRepositories_spec none parseOkSingleton "ok"
      [JsValue.obj [("owner", JsValue.str "me"), ("repo", JsValue.str "proj")]]
      (by decide) rfl rfl).2.1,
    (parseRepositories_spec (some "ok") parseOkSingleton "ok"
      [JsValue.obj [("owner", JsValue.str "me"), ("repo", JsValue.str "proj")]]
      (by decide) rfl rfl).2.2.2.2.2.2.2.1⟩

/-- Counterexample to C9 as stated: `GITHUB_REPOS = "[]"` parses to the empty
array, which passes validation (`every` is vacuously true), so
`parseRepositories` returns the empty list — not a non-empty array and not
the defaults. -/
theorem parseRepositories_empty_array :
    parseRepositories (some "[]")
      (fun s2 => if s2 = "[]" then Except.ok (JsValue.arr [])
        else (Except.error "unexpected" : Except String JsValue))
      = [] :=
  rfl

end GCA
